import Mathlib

/-!
Verification of the analysis orchestration core of the websites-checker
repository: the module registry, the dependency resolver (topological sort
with cycle and missing-dependency detection), the sequential executor with
its event trace, and the cache manager with TTL and in-memory fallback.

The definitions below are a shallow embedding of:
  - src/lib/analysis/orchestrator.ts  (Orchestrator class)
  - src/lib/analysis/types.ts         (data model)
  - src/lib/analysis/cache.ts         (CacheManager)
  - context creation (createAnalysisContext)

JavaScript `Map`s are modelled as insertion-ordered association lists,
`Set`s as duplicate-free lists, promise rejection as `Except`.  Module
execute functions are modelled as pure functions from the analysis context
to `Except String ρ` where `ρ` is the module result type.  Wall-clock time
(`Date.now()`) is passed explicitly in milliseconds.  The external Redis
store is not part of this repository; each cache operation therefore takes
the observable outcome of the Redis attempt (reachable reply or failure)
as an explicit argument, and reports whether it contacted Redis.
-/

namespace CruelStack

/-- Analysis options, from types.ts `AnalysisOptions`. -/
structure AnalysisOptions where
  maxDepth : Nat
  respectRobotsTxt : Bool
  includeExternalLinks : Bool
  performanceRuns : Nat
deriving DecidableEq

/-- Analysis context, from types.ts `AnalysisContext` and context.ts
`createAnalysisContext` (logger and cache handle are effect-only
collaborators and carry no data the orchestrator branches on). -/
structure AnalysisContext (ρ : Type) where
  url : String
  options : AnalysisOptions
  crawlResults : Option ρ := none

/-- An analysis module, from types.ts `AnalysisModule`.  The `phase` is a
plain string: `registerModule` only checks it is a nonempty string. -/
structure AnalysisModule (ρ : Type) where
  name : String
  phase : String
  dependencies : List String
  execute : AnalysisContext ρ → Except String ρ

/-- A module value as it arrives at `registerModule` before runtime
validation: each field may be missing or of the wrong runtime type
(`none` models a missing / wrongly-typed field). -/
structure RawModule (ρ : Type) where
  name : Option String
  phase : Option String
  dependencies : Option (List String)
  execute : Option (AnalysisContext ρ → Except String ρ)

/-- Orchestrator instance state: the module registry and the per-run
module-results table (both JavaScript `Map`s, here insertion-ordered
association structures).  Registered module names are unique because
`registerModule` rejects duplicates. -/
structure Orchestrator (ρ : Type) where
  modules : List (AnalysisModule ρ) := []
  moduleResults : List (String × ρ) := []

/-- Errors raised synchronously by `registerModule`. -/
inductive RegError where
  | duplicate (name : Option String)
  | invalidName
  | invalidPhase (name : String)
  | invalidDependencies (name : String)
  | invalidExecute (name : String)
deriving DecidableEq

/-- Errors thrown during order resolution.  `outOfFuel` is an artifact of
the bounded recursion used to embed the recursive `visit` closure; the
soundness lemmas show it never occurs at the fuel `resolveExecutionOrder`
supplies. -/
inductive ResolveErr where
  | circular (name : String)
  | notFound (name : String)
  | missingDep (dependent dep : String)
  | outOfFuel
deriving DecidableEq

/-- Discriminator: is this resolution error a circular-dependency error? -/
def ResolveErr.isCircular : ResolveErr → Bool
  | .circular _ => true
  | _ => false

/-- Discriminator: is this resolution error a missing-dependency error? -/
def ResolveErr.isMissingDep : ResolveErr → Bool
  | .missingDep _ _ => true
  | _ => false

/-- Discriminator: is this registration error a field-validation error
(anything other than the duplicate-name error)? -/
def RegError.isValidationErr : RegError → Bool
  | .duplicate _ => false
  | _ => true

/-- Association-list read, modelling `Map.get` (string keys). -/
def listGet? {β : Type} : List (String × β) → String → Option β
  | [], _ => none
  | (k', v) :: rest, k => if k' = k then some v else listGet? rest k

/-- Association-list write, modelling `Map.set`: replace in place if the
key exists (preserving insertion order), otherwise append. -/
def listSet {β : Type} : List (String × β) → String → β → List (String × β)
  | [], k, v => [(k, v)]
  | (k', v') :: rest, k, v =>
    if k' = k then (k, v) :: rest else (k', v') :: listSet rest k v

/-- Association-list removal, modelling `Map.delete`. -/
def listErase {β : Type} : List (String × β) → String → List (String × β)
  | [], _ => []
  | (k', v') :: rest, k => if k' = k then rest else (k', v') :: listErase rest k

/-- Registry lookup, modelling `this.modules.get(name)` /
`getModule(name)` from orchestrator.ts. -/
def findModule {ρ : Type} (reg : List (AnalysisModule ρ)) (name : String) :
    Option (AnalysisModule ρ) :=
  reg.find? (fun m => m.name == name)

/-- Registry membership test, modelling `this.modules.has(name)`. -/
def hasModuleName {ρ : Type} (o : Orchestrator ρ) (name : String) : Bool :=
  o.modules.any (fun m => m.name == name)

/-- `this.modules.has(module.name)` where `module.name` may be missing:
`Map.has(undefined)` is false on a registry whose keys are strings. -/
def rawHasName {ρ : Type} (o : Orchestrator ρ) : Option String → Bool
  | some s => hasModuleName o s
  | none => false

/-- `getModule(name)` from orchestrator.ts. -/
def getModule {ρ : Type} (o : Orchestrator ρ) (name : String) :
    Option (AnalysisModule ρ) :=
  findModule o.modules name

/-- `getAllModules()` from orchestrator.ts: registration order. -/
def getAllModules {ρ : Type} (o : Orchestrator ρ) : List (AnalysisModule ρ) :=
  o.modules

/-- `registerModule(module)` from orchestrator.ts.  The mutation of
`this.modules` happens only on the success path, so a throwing call
returns the unchanged orchestrator together with the error.  The checks
run in source order: duplicate name first, then name validity, phase,
dependencies array, execute function. -/
def registerModule {ρ : Type} (o : Orchestrator ρ) (m : RawModule ρ) :
    Orchestrator ρ × Option RegError :=
  if rawHasName o m.name then
    (o, some (.duplicate m.name))
  else
    match m.name with
    | none => (o, some .invalidName)
    | some s =>
      if s = "" then (o, some .invalidName)
      else
        match m.phase with
        | none => (o, some (.invalidPhase s))
        | some p =>
          if p = "" then (o, some (.invalidPhase s))
          else
            match m.dependencies with
            | none => (o, some (.invalidDependencies s))
            | some deps =>
              match m.execute with
              | none => (o, some (.invalidExecute s))
              | some f =>
                ({ o with modules := o.modules ++ [⟨s, p, deps, f⟩] }, none)

/-- `clearModules()` from orchestrator.ts. -/
def clearModules {ρ : Type} (_o : Orchestrator ρ) : Orchestrator ρ :=
  { modules := [], moduleResults := [] }

/-- State threaded through the recursive `visit` closure of
`resolveExecutionOrder`: the `visiting` set (current DFS stack), the
`visited` set, and the output `order`.  The JavaScript `Set`s are
duplicate-free and iteration order is irrelevant; `visited` is kept as a
list in insertion order so that it mirrors `order`. -/
structure VisitState (ρ : Type) where
  visiting : List String
  visited : List String
  order : List (AnalysisModule ρ)

/-- The dependency-loop body of `visit`: for each declared dependency,
check it is registered (`this.modules.has(dep)`), then recurse.  The
recursive call is supplied as `f` so that `visit` below is structurally
recursive on its fuel. -/
def visitFold {ρ : Type}
    (f : VisitState ρ → String → Except ResolveErr (VisitState ρ))
    (reg : List (AnalysisModule ρ)) (dependent : String) :
    VisitState ρ → List String → Except ResolveErr (VisitState ρ)
  | st, [] => .ok st
  | st, dep :: rest =>
    if (findModule reg dep).isSome then
      match f st dep with
      | .error e => .error e
      | .ok st' => visitFold f reg dependent st' rest
    else .error (.missingDep dependent dep)

/-- The recursive `visit` closure of `resolveExecutionOrder`
(orchestrator.ts lines 104-137), with fuel bounding the recursion depth.
Checks, in source order: circular dependency (name on the DFS stack),
already visited, module not found; then pushes the name on the stack,
visits all dependencies, pops the name, and appends the module to the
visited set and the output order. -/
def visit {ρ : Type} (reg : List (AnalysisModule ρ)) :
    Nat → VisitState ρ → String → Except ResolveErr (VisitState ρ)
  | 0, _, _ => .error .outOfFuel
  | fuel + 1, st, name =>
    if st.visiting.contains name then .error (.circular name)
    else if st.visited.contains name then .ok st
    else
      match findModule reg name with
      | none => .error (.notFound name)
      | some m =>
        match visitFold (fun st' dep => visit reg fuel st' dep) reg name
            { st with visiting := st.visiting ++ [name] } m.dependencies with
        | .error e => .error e
        | .ok st' =>
          .ok { visiting := st'.visiting.erase name
                visited := st'.visited ++ [name]
                order := st'.order ++ [m] }

/-- The top-level loop of `resolveExecutionOrder`: visit every registered
module in registration order. -/
def visitAll {ρ : Type} (reg : List (AnalysisModule ρ)) (fuel : Nat) :
    VisitState ρ → List (AnalysisModule ρ) → Except ResolveErr (VisitState ρ)
  | st, [] => .ok st
  | st, m :: rest =>
    match visit reg fuel st m.name with
    | .error e => .error e
    | .ok st' => visitAll reg fuel st' rest

/-- `resolveExecutionOrder()` from orchestrator.ts: depth-first
topological sort over the registered modules.  The fuel
`modules.length + 1` bounds the DFS stack depth; the soundness lemmas
show it is never exhausted. -/
def resolveExecutionOrder {ρ : Type} (o : Orchestrator ρ) :
    Except ResolveErr (List (AnalysisModule ρ)) :=
  match visitAll o.modules (o.modules.length + 1) ⟨[], [], []⟩ o.modules with
  | .error e => .error e
  | .ok st => .ok st.order

/-- Direct dependency relation induced by a registry, as a Boolean:
`a` depends on `b` when the registered module named `a` declares `b`. -/
def depOnB {ρ : Type} (reg : List (AnalysisModule ρ)) (a b : String) : Bool :=
  match findModule reg a with
  | some m => m.dependencies.contains b
  | none => false

/-- Direct dependency relation as a proposition. -/
def depOn {ρ : Type} (reg : List (AnalysisModule ρ)) (a b : String) : Prop :=
  depOnB reg a b = true

instance {ρ : Type} (reg : List (AnalysisModule ρ)) (a b : String) :
    Decidable (depOn reg a b) := by
  unfold depOn
  infer_instance

/-- Live counters carried by every progress update (types.ts
`LiveMetrics`); the orchestrator always emits them zeroed. -/
structure LiveMetrics where
  pagesCrawled : Nat
  issuesFound : Nat
  technologiesDetected : Nat
  resourcesAnalyzed : Nat
deriving DecidableEq

/-- A notable finding (types.ts `Discovery`); the orchestrator always
emits an empty discovery list, so the timestamp is modelled as a plain
number. -/
structure Discovery where
  kind : String
  severity : String
  message : String
  timestamp : Nat
deriving DecidableEq

/-- A progress update (types.ts `ProgressUpdate`). -/
structure ProgressUpdate where
  phase : String
  progress : Nat
  currentTask : String
  discoveries : List Discovery
  metrics : LiveMetrics
deriving DecidableEq

/-- The aggregated results object assembled at the end of
`executeAnalysis` (types.ts `AnalysisResults`): one optional slot per
well-known module name; a slot is absent when that module never recorded
a result. -/
structure AnalysisResults (ρ : Type) where
  crawlData : Option ρ
  performanceData : Option ρ
  securityData : Option ρ
  technologyData : Option ρ
  seoData : Option ρ
  accessibilityData : Option ρ
  cssData : Option ρ
  functionalityData : Option ρ
deriving DecidableEq

/-- An analysis job (types.ts `AnalysisJob`); timestamps are irrelevant
to the orchestrator and omitted. -/
structure AnalysisJob where
  id : String
  url : String
  status : String
  options : AnalysisOptions
deriving DecidableEq

/-- The events the orchestrator emits during a run, in emission order
(orchestrator.ts `OrchestratorEvents`).  Module errors carry the error
message; the run-fatal `error` event carries the resolution error, the
only exception the orchestration logic itself raises in this model. -/
inductive OrchEvent (ρ : Type) where
  | progress (update : ProgressUpdate)
  | moduleStart (name : String)
  | moduleComplete (name : String) (result : ρ)
  | moduleError (name : String) (err : String)
  | complete (results : AnalysisResults ρ)
  | error (e : ResolveErr)
deriving DecidableEq

/-- Math.round(x) for the nonnegative rational `100 * num / den`:
floor(x + 1/2), matching the progress formula of `calculateProgress`. -/
def jsRound100 (num den : Nat) : Nat :=
  (200 * num + den) / (2 * den)

/-- Array.prototype.findIndex, with the not-found -1 modelled as `none`. -/
def jsFindIndex {α : Type} (p : α → Bool) : List α → Option Nat
  | [] => none
  | a :: l => if p a then some 0 else (jsFindIndex p l).map (· + 1)

/-- `calculateProgress(executionOrder, currentModule)` from
orchestrator.ts: `Math.round(((currentIndex + 1) / executionOrder.length)
* 100)`, or 0 when the module is not in the order. -/
def calculateProgress {ρ : Type} (executionOrder : List (AnalysisModule ρ))
    (currentModule : String) : Nat :=
  match jsFindIndex (fun m => m.name == currentModule) executionOrder with
  | none => 0
  | some i => jsRound100 (i + 1) executionOrder.length

/-- The progress update emitted after module `m` completes. -/
def mkProgressUpdate {ρ : Type} (executionOrder : List (AnalysisModule ρ))
    (m : AnalysisModule ρ) : ProgressUpdate :=
  { phase := m.phase
    progress := calculateProgress executionOrder m.name
    currentTask := "Completed " ++ m.name
    discoveries := []
    metrics := ⟨0, 0, 0, 0⟩ }

/-- One iteration of the execution loop of `executeAnalysis`
(orchestrator.ts lines 172-213): emit `moduleStart`, run the module; on
success record the result, update the context's crawl slot when the
phase is `crawl`, emit `moduleComplete` then `progress`; on failure emit
`moduleError` and continue.  Returns the new context, the new results
table and the events emitted for this module. -/
def stepModule {ρ : Type} (executionOrder : List (AnalysisModule ρ))
    (ctx : AnalysisContext ρ) (results : List (String × ρ))
    (m : AnalysisModule ρ) :
    AnalysisContext ρ × List (String × ρ) × List (OrchEvent ρ) :=
  match m.execute ctx with
  | .ok r =>
    (if m.phase == "crawl" then { ctx with crawlResults := some r } else ctx,
     listSet results m.name r,
     [.moduleStart m.name, .moduleComplete m.name r,
      .progress (mkProgressUpdate executionOrder m)])
  | .error e =>
    (ctx, results, [.moduleStart m.name, .moduleError m.name e])

/-- The execution loop over the resolved order: sequential, each module's
failure isolated. -/
def runModules {ρ : Type} (executionOrder : List (AnalysisModule ρ)) :
    AnalysisContext ρ → List (String × ρ) → List (AnalysisModule ρ) →
    AnalysisContext ρ × List (String × ρ) × List (OrchEvent ρ)
  | ctx, results, [] => (ctx, results, [])
  | ctx, results, m :: rest =>
    let step := stepModule executionOrder ctx results m
    let next := runModules executionOrder step.1 step.2.1 rest
    (next.1, next.2.1, step.2.2 ++ next.2.2)

/-- Final aggregation (orchestrator.ts lines 218-227): read the
module-results table at the eight well-known module names. -/
def aggregateResults {ρ : Type} (results : List (String × ρ)) :
    AnalysisResults ρ :=
  { crawlData := listGet? results "crawler"
    performanceData := listGet? results "performance"
    securityData := listGet? results "security"
    technologyData := listGet? results "technology"
    seoData := listGet? results "seo"
    accessibilityData := listGet? results "accessibility"
    cssData := listGet? results "css"
    functionalityData := listGet? results "functionality" }

/-- The well-known module names that own a slot in the aggregate. -/
def wellKnownSlots : List String :=
  ["crawler", "performance", "security", "technology", "seo",
   "accessibility", "css", "functionality"]

/-- Read the aggregate slot owned by a module name (names outside
`wellKnownSlots` own no slot). -/
def slotOf {ρ : Type} (r : AnalysisResults ρ) (name : String) : Option ρ :=
  if name = "crawler" then r.crawlData
  else if name = "performance" then r.performanceData
  else if name = "security" then r.securityData
  else if name = "technology" then r.technologyData
  else if name = "seo" then r.seoData
  else if name = "accessibility" then r.accessibilityData
  else if name = "css" then r.cssData
  else if name = "functionality" then r.functionalityData
  else none

/-- The observable outcome of one `executeAnalysis(job)` call: the
returned-or-thrown result, the emitted event trace, and the orchestrator
state afterwards. -/
structure ExecOutcome (ρ : Type) where
  result : Except ResolveErr (AnalysisResults ρ)
  events : List (OrchEvent ρ)
  final : Orchestrator ρ

/-- `executeAnalysis(job)` from orchestrator.ts: clear the results table,
resolve the execution order (a resolution failure emits `error` and
rethrows before any module starts), build a fresh context from the job,
run every module sequentially with per-module failure isolation, assemble
the aggregate, emit `complete` and return it. -/
def executeAnalysis {ρ : Type} (o : Orchestrator ρ) (job : AnalysisJob) :
    ExecOutcome ρ :=
  match resolveExecutionOrder o with
  | .error e =>
    { result := .error e
      events := [.error e]
      final := { o with moduleResults := [] } }
  | .ok executionOrder =>
    let ctx : AnalysisContext ρ :=
      { url := job.url, options := job.options, crawlResults := none }
    let run := runModules executionOrder ctx [] executionOrder
    let agg := aggregateResults run.2.1
    { result := .ok agg
      events := run.2.2 ++ [.complete agg]
      final := { o with moduleResults := run.2.1 } }

/-- Event discriminator: progress events. -/
def isProgressEvent {ρ : Type} : OrchEvent ρ → Bool
  | .progress _ => true
  | _ => false

/-- Event discriminator: moduleComplete events. -/
def isModuleCompleteEvent {ρ : Type} : OrchEvent ρ → Bool
  | .moduleComplete _ _ => true
  | _ => false

/-- Event discriminator: moduleStart events. -/
def isModuleStartEvent {ρ : Type} : OrchEvent ρ → Bool
  | .moduleStart _ => true
  | _ => false

/-- Extract a progress event's percentage. -/
def progressValue? {ρ : Type} : OrchEvent ρ → Option Nat
  | .progress u => some u.progress
  | _ => none

/-! Cache manager, from src/lib/analysis/cache.ts.  The shared
module-level `memoryCache` map stores serialized values with absolute
expiry timestamps in milliseconds; values are kept in their serialized
(string) form, with `JSON.parse` of a value produced by `JSON.stringify`
modelled as always succeeding.  Each operation receives the outcome of
its Redis attempt as data (`none` = the Redis client threw / the store is
unreachable) and reports whether it contacted Redis at all. -/

/-- One entry of the in-memory fallback cache. -/
structure CacheEntry where
  value : String
  expires : Int
deriving DecidableEq

/-- The process-wide in-memory fallback map. -/
abbrev MemoryCache := List (String × CacheEntry)

/-- Per-instance cache-manager state: the key namespace (the `prefix`
constructor argument, default "analysis") and the `useRedis` flag. -/
structure CacheManager where
  pre : String
  useRedis : Bool
deriving DecidableEq

/-- `createCacheManager(prefix)`: `useRedis` starts true. -/
def createCacheManager (pre : String) : CacheManager :=
  { pre := pre, useRedis := true }

/-- `getKey(key)`: namespace a key under this manager's prefix. -/
def getKey (c : CacheManager) (key : String) : String :=
  c.pre ++ ":" ++ key

/-- The memory-cache read path of `get`: absent key gives `null`; an
entry past its expiry is deleted and reported absent. -/
def memGetEntry (mem : MemoryCache) (cacheKey : String) (now : Int) :
    Option String × MemoryCache :=
  match listGet? mem cacheKey with
  | none => (none, mem)
  | some e =>
    if now > e.expires then (none, listErase mem cacheKey)
    else (some e.value, mem)

/-- The memory-cache path of `has`: like `get` but Boolean. -/
def memHasEntry (mem : MemoryCache) (cacheKey : String) (now : Int) :
    Bool × MemoryCache :=
  match listGet? mem cacheKey with
  | none => (false, mem)
  | some e =>
    if now > e.expires then (false, listErase mem cacheKey)
    else (true, mem)

/-- `CacheManager.get(key)`.  `redisReply`: `none` when Redis is
unreachable (the catch block marks `useRedis` false and falls back to
memory), `some v?` when Redis replied (a `null` reply returns `null`
without touching the memory cache).  Returns (value, manager state,
memory cache, contacted-Redis flag). -/
def cacheGet (c : CacheManager) (mem : MemoryCache) (key : String)
    (redisReply : Option (Option String)) (now : Int) :
    Option String × CacheManager × MemoryCache × Bool :=
  let cacheKey := getKey c key
  if c.useRedis then
    match redisReply with
    | some v? => (v?, c, mem, true)
    | none =>
      let r := memGetEntry mem cacheKey now
      (r.1, { c with useRedis := false }, r.2, true)
  else
    let r := memGetEntry mem cacheKey now
    (r.1, c, r.2, false)

/-- `CacheManager.set(key, value, options)`.  The effective TTL is
`options.ttl || 3600`: a missing **or zero** TTL falls back to one hour
because `0` is falsy in JavaScript.  On the Redis path the expiry is
handled by `setex` inside the external store; on the memory path the
entry records `Date.now() + ttl * 1000`. -/
def cacheSet (c : CacheManager) (mem : MemoryCache) (key value : String)
    (ttl? : Option Int) (redisOk : Bool) (now : Int) :
    CacheManager × MemoryCache × Bool :=
  let cacheKey := getKey c key
  let ttl : Int :=
    match ttl? with
    | some t => if t = 0 then 3600 else t
    | none => 3600
  if c.useRedis then
    if redisOk then (c, mem, true)
    else
      ({ c with useRedis := false },
       listSet mem cacheKey ⟨value, now + ttl * 1000⟩, true)
  else
    (c, listSet mem cacheKey ⟨value, now + ttl * 1000⟩, false)

/-- `CacheManager.delete(key)`. -/
def cacheDelete (c : CacheManager) (mem : MemoryCache) (key : String)
    (redisOk : Bool) : CacheManager × MemoryCache × Bool :=
  let cacheKey := getKey c key
  if c.useRedis then
    if redisOk then (c, mem, true)
    else ({ c with useRedis := false }, listErase mem cacheKey, true)
  else
    (c, listErase mem cacheKey, false)

/-- `CacheManager.has(key)`. -/
def cacheHas (c : CacheManager) (mem : MemoryCache) (key : String)
    (redisReply : Option Bool) (now : Int) :
    Bool × CacheManager × MemoryCache × Bool :=
  let cacheKey := getKey c key
  if c.useRedis then
    match redisReply with
    | some b => (b, c, mem, true)
    | none =>
      let r := memHasEntry mem cacheKey now
      (r.1, { c with useRedis := false }, r.2, true)
  else
    let r := memHasEntry mem cacheKey now
    (r.1, c, r.2, false)

/-- Remove every memory-cache entry under this manager's prefix. -/
def memClearNamespace (mem : MemoryCache) (pre : String) : MemoryCache :=
  mem.filter (fun p => !(pre ++ ":").isPrefixOf p.1)

/-- `CacheManager.clear()`. -/
def cacheClear (c : CacheManager) (mem : MemoryCache) (redisOk : Bool) :
    CacheManager × MemoryCache × Bool :=
  if c.useRedis then
    if redisOk then (c, mem, true)
    else ({ c with useRedis := false }, memClearNamespace mem c.pre, true)
  else
    (c, memClearNamespace mem c.pre, false)

/-- One cache operation together with the outcome its Redis attempt
would observe and, where relevant, the current wall-clock time. -/
inductive CacheOp where
  | opGet (key : String) (redisReply : Option (Option String)) (now : Int)
  | opSet (key value : String) (ttl? : Option Int) (redisOk : Bool) (now : Int)
  | opDelete (key : String) (redisOk : Bool)
  | opHas (key : String) (redisReply : Option Bool) (now : Int)
  | opClear (redisOk : Bool)
deriving DecidableEq

/-- Apply one cache operation; result is (manager state, memory cache,
contacted-Redis flag). -/
def applyOp (c : CacheManager) (mem : MemoryCache) :
    CacheOp → CacheManager × MemoryCache × Bool
  | .opGet k reply now =>
    let r := cacheGet c mem k reply now
    (r.2.1, r.2.2.1, r.2.2.2)
  | .opSet k v ttl? redisOk now => cacheSet c mem k v ttl? redisOk now
  | .opDelete k redisOk => cacheDelete c mem k redisOk
  | .opHas k reply now =>
    let r := cacheHas c mem k reply now
    (r.2.1, r.2.2.1, r.2.2.2)
  | .opClear redisOk => cacheClear c mem redisOk

/-- Run a sequence of cache operations, collecting each operation's
contacted-Redis flag. -/
def runOps (c : CacheManager) (mem : MemoryCache) :
    List CacheOp → CacheManager × MemoryCache × List Bool
  | [] => (c, mem, [])
  | op :: rest =>
    let r := applyOp c mem op
    let rs := runOps r.1 r.2.1 rest
    (rs.1, rs.2.1, r.2.2 :: rs.2.2)

/-- Does this operation find the external store unreachable (its Redis
attempt throws)? -/
def opRedisDown : CacheOp → Bool
  | .opGet _ reply _ => reply.isNone
  | .opSet _ _ _ redisOk _ => !redisOk
  | .opDelete _ redisOk => !redisOk
  | .opHas _ reply _ => reply.isNone
  | .opClear redisOk => !redisOk

/-! Concrete instances used by witnesses and counterexamples. -/

/-- A job value; its fields are irrelevant to the orchestration logic. -/
def sampleJob : AnalysisJob :=
  ⟨"job-1", "https://example.com", "running", ⟨3, true, false, 1⟩⟩

/-- A registered performance module that always succeeds. -/
def sampleModule : AnalysisModule Nat :=
  ⟨"performance", "performance", [], fun _ => .ok 5⟩

/-- A registry holding just `sampleModule`. -/
def sampleOrch : Orchestrator Nat := { modules := [sampleModule] }

/-- A raw module reusing the registered name while carrying an invalid
phase, invalid dependencies and no execute function. -/
def sampleRaw : RawModule Nat := ⟨some "performance", none, none, none⟩

/-- The diamond registry of spec section 8: a; b and c depend on a; d
depends on b and c. -/
def diamondOrch : Orchestrator Nat :=
  { modules :=
      [⟨"a", "crawl", [], fun _ => .ok 0⟩,
       ⟨"b", "performance", ["a"], fun _ => .ok 1⟩,
       ⟨"c", "security", ["a"], fun _ => .ok 2⟩,
       ⟨"d", "seo", ["b", "c"], fun _ => .ok 3⟩] }

/-- A rank function certifying the diamond registry acyclic. -/
def diamondRank : String → Nat
  | "a" => 0
  | "b" => 1
  | "c" => 1
  | _ => 2

/-- A security module whose execute always rejects. -/
def failingModule : AnalysisModule Nat :=
  ⟨"security", "security", [], fun _ => .error "boom"⟩

/-- A registry holding an always-failing and an always-succeeding
independent module. -/
def mixedRunOrch : Orchestrator Nat :=
  { modules := [failingModule, sampleModule] }

/-- A registry with both a missing dependency (a → x) and a dependency
cycle (b → c → b); the resolver meets the missing dependency first. -/
def mixedErrOrch : Orchestrator Nat :=
  { modules :=
      [⟨"a", "crawl", ["x"], fun _ => .ok 0⟩,
       ⟨"b", "crawl", ["c"], fun _ => .ok 0⟩,
       ⟨"c", "crawl", ["b"], fun _ => .ok 0⟩] }

/-- A registry with both a dependency cycle (a → a) and a missing
dependency (b → x); the resolver meets the cycle first. -/
def cycleFirstOrch : Orchestrator Nat :=
  { modules :=
      [⟨"a", "crawl", ["a"], fun _ => .ok 0⟩,
       ⟨"b", "crawl", ["x"], fun _ => .ok 0⟩] }

/-- A two-module cycle with every dependency registered. -/
def cycleOrch : Orchestrator Nat :=
  { modules :=
      [⟨"a", "crawl", ["b"], fun _ => .ok 0⟩,
       ⟨"b", "crawl", ["a"], fun _ => .ok 0⟩] }

/-- A module naming an unregistered dependency. -/
def missingDepModule : AnalysisModule Nat :=
  ⟨"a", "crawl", ["x"], fun _ => .ok 0⟩

/-- An acyclic registry whose single module names an unregistered
dependency. -/
def missingDepOrch : Orchestrator Nat :=
  { modules := [missingDepModule] }

/-- A two-module registry in which every module succeeds. -/
def allOkOrch : Orchestrator Nat :=
  { modules :=
      [⟨"crawler", "crawl", [], fun _ => .ok 10⟩,
       ⟨"performance", "performance", ["crawler"], fun _ => .ok 20⟩] }

/-- The name of the i-th module of the 200-module registry: i+1 copies
of the letter m, so distinct indices give names of distinct lengths. -/
def bigName (i : Nat) : String :=
  String.mk (List.replicate (i + 1) 'm')

/-- One module of the 200-module registry: independent, succeeding
everywhere except the last (index 199), which always rejects. -/
def bigModule (i : Nat) : AnalysisModule Nat :=
  if i = 199 then ⟨bigName i, "technology", [], fun _ => .error "boom"⟩
  else ⟨bigName i, "technology", [], fun _ => .ok 0⟩

/-- Two hundred independent modules; only the last fails. -/
def bigMods : List (AnalysisModule Nat) := (List.range 200).map bigModule

/-- The 200-module registry. -/
def bigOrch : Orchestrator Nat := { modules := bigMods }

/-! Specification-side predicates for the resolver soundness proof. -/

/-- The names of the registered modules, in registration order. -/
def regNames {ρ : Type} (reg : List (AnalysisModule ρ)) : List String :=
  reg.map (fun m => m.name)

/-- Invariant of the resolver's visited/order state: the output order
mirrors the visited set name-for-name; every ordered module is the
registered module of its name; visited names are distinct registered
names; the visited set is closed under direct dependencies; and no
earlier visited name depends on a later one (so the order built so far
is topologically sorted). -/
structure StInv {ρ : Type} (reg : List (AnalysisModule ρ))
    (st : VisitState ρ) : Prop where
  ordNames : st.order.map (fun m => m.name) = st.visited
  ordFound : ∀ m ∈ st.order, findModule reg m.name = some m
  nodup : st.visited.Nodup
  visSub : ∀ a ∈ st.visited, a ∈ regNames reg
  closed : ∀ a ∈ st.visited, ∀ b, depOn reg a b → b ∈ st.visited
  pairw : List.Pairwise (fun a b => ¬ depOn reg a b) st.visited
  irrefl : ∀ a ∈ st.visited, ¬ depOn reg a a

/-- Precondition of a `visit` call: state invariant, the DFS stack is a
duplicate-free dependency chain of registered names, and the fuel
dominates the number of registered names not yet on the stack. -/
def VisitPre {ρ : Type} (reg : List (AnalysisModule ρ)) (fuel : Nat)
    (st : VisitState ρ) : Prop :=
  StInv reg st ∧ st.visiting.Nodup ∧
  (∀ x ∈ st.visiting, x ∈ regNames reg) ∧
  List.Chain' (depOn reg) st.visiting ∧
  (regNames reg).length < fuel + st.visiting.length

/-- Postcondition relating the states before and after a successful
`visit` call: the DFS stack is restored, the visited set only grows (as
a prefix extension), the invariant is maintained, and every newly
visited name was not on the incoming DFS stack. -/
def VisitPost {ρ : Type} (reg : List (AnalysisModule ρ))
    (st st' : VisitState ρ) : Prop :=
  st'.visiting = st.visiting ∧
  (∃ tl, st'.visited = st.visited ++ tl) ∧
  StInv reg st' ∧
  (∀ x ∈ st'.visited, x ∈ st.visited ∨ x ∉ st.visiting)

/-- Classification of the errors a resolver call can produce: fuel never
runs out, a not-found error never surfaces (lookups are pre-checked), a
circular error names a module that really lies on a dependency cycle,
and a missing-dependency error names a registered dependent together
with its genuinely unregistered dependency. -/
def ErrPost {ρ : Type} (reg : List (AnalysisModule ρ))
    (r : Except ResolveErr (VisitState ρ)) : Prop :=
  r ≠ .error .outOfFuel ∧
  (∀ n, r ≠ .error (.notFound n)) ∧
  (∀ c, r = .error (.circular c) → Relation.TransGen (depOn reg) c c) ∧
  (∀ a b, r = .error (.missingDep a b) →
    ∃ m, findModule reg a = some m ∧ b ∈ m.dependencies ∧
      findModule reg b = none)

/-! Basic lemmas about the association-list operations. -/

theorem listGet?_listSet_self {β : Type} (l : List (String × β)) (k : String)
    (v : β) : listGet? (listSet l k v) k = some v := by
  induction l with
  | nil => simp [listSet, listGet?]
  | cons p rest ih =>
    obtain ⟨k', v'⟩ := p
    by_cases h : k' = k
    · simp [listSet, listGet?, h]
    · simp [listSet, listGet?, h, ih]

theorem listGet?_listSet_ne {β : Type} (l : List (String × β)) (k k' : String)
    (v : β) (h : k ≠ k') : listGet? (listSet l k v) k' = listGet? l k' := by
  induction l with
  | nil => simp [listSet, listGet?, h]
  | cons p rest ih =>
    obtain ⟨k₀, v₀⟩ := p
    by_cases h₀ : k₀ = k
    · subst h₀
      simp [listSet, listGet?, h]
    · simp [listSet, listGet?, h₀, ih]

/-! Cache-manager lemmas: TTL behaviour on the in-memory path and the
one-way `useRedis` latch. -/

theorem applyOp_useRedis_false (c : CacheManager) (mem : MemoryCache)
    (op : CacheOp) (hc : c.useRedis = false) :
    (applyOp c mem op).1.useRedis = false ∧ (applyOp c mem op).2.2 = false := by
  cases op <;>
    simp [applyOp, cacheGet, cacheSet, cacheDelete, cacheHas, cacheClear, hc]

theorem runOps_useRedis_false (c : CacheManager) (mem : MemoryCache)
    (ops : List CacheOp) (hc : c.useRedis = false) :
    (∀ b ∈ (runOps c mem ops).2.2, b = false) ∧
    (runOps c mem ops).1.useRedis = false := by
  induction ops generalizing c mem with
  | nil => simp [runOps, hc]
  | cons op rest ih =>
    have h1 := applyOp_useRedis_false c mem op hc
    have h2 := ih (applyOp c mem op).1 (applyOp c mem op).2.1 h1.1
    refine ⟨?_, by simpa [runOps] using h2.2⟩
    intro b hb
    simp only [runOps] at hb
    rcases List.mem_cons.mp hb with hb | hb
    · rw [hb, h1.2]
    · exact h2.1 b hb

theorem applyOp_down (c : CacheManager) (mem : MemoryCache) (op : CacheOp)
    (h : opRedisDown op = true) : (applyOp c mem op).1.useRedis = false := by
  by_cases hc : c.useRedis = true
  · cases op with
    | opGet k reply now =>
      rw [Option.isNone_iff_eq_none.mp h]
      simp [applyOp, cacheGet, hc]
    | opSet k v ttl? redisOk now =>
      have : redisOk = false := by simpa [opRedisDown] using h
      simp [applyOp, cacheSet, hc, this]
    | opDelete k redisOk =>
      have : redisOk = false := by simpa [opRedisDown] using h
      simp [applyOp, cacheDelete, hc, this]
    | opHas k reply now =>
      rw [Option.isNone_iff_eq_none.mp h]
      simp [applyOp, cacheHas, hc]
    | opClear redisOk =>
      have : redisOk = false := by simpa [opRedisDown] using h
      simp [applyOp, cacheClear, hc, this]
  · exact (applyOp_useRedis_false c mem op (by simpa using hc)).1

/-- Claim C8: once any operation on a cache-manager instance finds the
external store unreachable, the instance's `useRedis` flag is false, and
every subsequent operation works on the in-memory map alone — it never
contacts the external store again and the flag stays false. -/
theorem claim_C8_memory_fallback_latch (c : CacheManager) (mem : MemoryCache)
    (op : CacheOp) (ops : List CacheOp) (h : opRedisDown op = true) :
    (applyOp c mem op).1.useRedis = false ∧
    (∀ b ∈ (runOps (applyOp c mem op).1 (applyOp c mem op).2.1 ops).2.2,
      b = false) ∧
    (runOps (applyOp c mem op).1 (applyOp c mem op).2.1 ops).1.useRedis
      = false := by
  have h1 := applyOp_down c mem op h
  have h2 := runOps_useRedis_false (applyOp c mem op).1
    (applyOp c mem op).2.1 ops h1
  exact ⟨h1, h2.1, h2.2⟩

theorem claim_C8_memory_fallback_latch_witness :
    opRedisDown (CacheOp.opGet "k" none 0) = true ∧
    ((applyOp ⟨"analysis", true⟩ [] (CacheOp.opGet "k" none 0)).1.useRedis
        = false ∧
     (∀ b ∈ (runOps (applyOp ⟨"analysis", true⟩ []
          (CacheOp.opGet "k" none 0)).1
        (applyOp ⟨"analysis", true⟩ [] (CacheOp.opGet "k" none 0)).2.1
        [CacheOp.opSet "a" "v" none true 7,
         CacheOp.opHas "a" (some true) 9]).2.2, b = false) ∧
     (runOps (applyOp ⟨"analysis", true⟩ [] (CacheOp.opGet "k" none 0)).1
        (applyOp ⟨"analysis", true⟩ [] (CacheOp.opGet "k" none 0)).2.1
        [CacheOp.opSet "a" "v" none true 7,
         CacheOp.opHas "a" (some true) 9]).1.useRedis = false) :=
  ⟨by decide,
   claim_C8_memory_fallback_latch ⟨"analysis", true⟩ [] (CacheOp.opGet "k" none 0)
     [CacheOp.opSet "a" "v" none true 7, CacheOp.opHas "a" (some true) 9]
     (by decide)⟩

/-- Claim C6, amended: on the in-memory path, after `set(k, v, ttl := t)`
with a **positive** TTL of t seconds, once more than t seconds have
passed `get` reports the key absent and `has` reports false; a `set`
without a TTL stores the one-hour default expiry.  (The original claim
also covered t = 0, but `options.ttl || 3600` treats a zero TTL as
unset — see the counterexample.) -/
theorem claim_C6_cache_ttl (c : CacheManager) (mem : MemoryCache)
    (k v : String) (t now now2 : Int) (ru : Bool)
    (r1 : Option (Option String)) (r2 : Option Bool)
    (hc : c.useRedis = false) (ht : 0 < t) (hlate : now + t * 1000 < now2) :
    (cacheGet (cacheSet c mem k v (some t) ru now).1
        (cacheSet c mem k v (some t) ru now).2.1 k r1 now2).1 = none ∧
    (cacheHas (cacheSet c mem k v (some t) ru now).1
        (cacheSet c mem k v (some t) ru now).2.1 k r2 now2).1 = false ∧
    listGet? (cacheSet c mem k v none ru now).2.1 (getKey c k) =
      some ⟨v, now + 3600 * 1000⟩ := by
  have hset : cacheSet c mem k v (some t) ru now =
      (c, listSet mem (getKey c k) ⟨v, now + t * 1000⟩, false) := by
    simp [cacheSet, hc, ht.ne']
  have hget : listGet? (listSet mem (getKey c k) ⟨v, now + t * 1000⟩)
      (getKey c k) = some ⟨v, now + t * 1000⟩ := listGet?_listSet_self _ _ _
  refine ⟨?_, ?_, ?_⟩
  · rw [hset]
    simp [cacheGet, hc, memGetEntry, hget, hlate]
  · rw [hset]
    simp [cacheHas, hc, memHasEntry, hget, hlate]
  · have : cacheSet c mem k v none ru now =
        (c, listSet mem (getKey c k) ⟨v, now + 3600 * 1000⟩, false) := by
      simp [cacheSet, hc]
    rw [this]
    exact listGet?_listSet_self _ _ _

theorem claim_C6_cache_ttl_witness :
    ((⟨"analysis", false⟩ : CacheManager).useRedis = false ∧ (0 : Int) < 5 ∧
      (0 : Int) + 5 * 1000 < 5001) ∧
    ((cacheGet (cacheSet ⟨"analysis", false⟩ [] "k" "v" (some 5) false 0).1
        (cacheSet ⟨"analysis", false⟩ [] "k" "v" (some 5) false 0).2.1
        "k" none 5001).1 = none ∧
     (cacheHas (cacheSet ⟨"analysis", false⟩ [] "k" "v" (some 5) false 0).1
        (cacheSet ⟨"analysis", false⟩ [] "k" "v" (some 5) false 0).2.1
        "k" none 5001).1 = false ∧
     listGet? (cacheSet ⟨"analysis", false⟩ [] "k" "v" none false 0).2.1
        (getKey ⟨"analysis", false⟩ "k") = some ⟨"v", 0 + 3600 * 1000⟩) :=
  ⟨by refine ⟨rfl, by decide, by decide⟩,
   claim_C6_cache_ttl ⟨"analysis", false⟩ [] "k" "v" 5 0 5001 false none none
     rfl (by decide) (by decide)⟩

/-- Claim C6, counterexample to the original statement at t = 0: after
`set("k", "v", ttl := 0)` on the in-memory path at time 0, more than
zero seconds later (at 1000 ms) the key is still present — `get` returns
the value and `has` returns true, because `options.ttl || 3600` replaces
a zero TTL with the one-hour default. -/
theorem claim_C6_counterexample :
    (cacheGet (cacheSet ⟨"analysis", false⟩ [] "k" "v" (some 0) false 0).1
        (cacheSet ⟨"analysis", false⟩ [] "k" "v" (some 0) false 0).2.1
        "k" none 1000).1 = some "v" ∧
    (cacheHas (cacheSet ⟨"analysis", false⟩ [] "k" "v" (some 0) false 0).1
        (cacheSet ⟨"analysis", false⟩ [] "k" "v" (some 0) false 0).2.1
        "k" none 1000).1 = true := by
  constructor <;> rfl

/-! Registry lemmas: duplicate registration. -/

/-- Claim C7: registering a second module under an already-registered
name fails with the duplicate-name error, leaves the registry unchanged,
and `getModule` still returns the original module. -/
theorem claim_C7_duplicate_name_rejected {ρ : Type} (o : Orchestrator ρ)
    (m : AnalysisModule ρ) (raw : RawModule ρ)
    (hm : getModule o m.name = some m) (hname : raw.name = some m.name) :
    (registerModule o raw).2 = some (RegError.duplicate (some m.name)) ∧
    (registerModule o raw).1 = o ∧
    getModule (registerModule o raw).1 m.name = some m := by
  have hmem : m ∈ o.modules := List.mem_of_find?_eq_some hm
  have hhas : hasModuleName o m.name = true := by
    unfold hasModuleName
    rw [List.any_eq_true]
    exact ⟨m, hmem, by simp⟩
  have hr : rawHasName o raw.name = true := by rw [hname]; exact hhas
  have hreg : registerModule o raw = (o, some (RegError.duplicate raw.name)) := by
    unfold registerModule
    rw [if_pos hr]
  rw [hreg, hname]
  exact ⟨rfl, rfl, hm⟩

theorem claim_C7_duplicate_name_rejected_witness :
    (getModule sampleOrch sampleModule.name = some sampleModule ∧
      (RawModule.mk (some sampleModule.name) (some "seo") (some [])
        (some fun _ => Except.ok 9)).name = some sampleModule.name) ∧
    ((registerModule sampleOrch
        ⟨some sampleModule.name, some "seo", some [], some fun _ => Except.ok 9⟩).2
        = some (RegError.duplicate (some sampleModule.name)) ∧
     (registerModule sampleOrch
        ⟨some sampleModule.name, some "seo", some [], some fun _ => Except.ok 9⟩).1
        = sampleOrch ∧
     getModule (registerModule sampleOrch
        ⟨some sampleModule.name, some "seo", some [], some fun _ => Except.ok 9⟩).1
        sampleModule.name = some sampleModule) :=
  ⟨⟨rfl, rfl⟩,
   claim_C7_duplicate_name_rejected sampleOrch sampleModule
     ⟨some sampleModule.name, some "seo", some [], some fun _ => Except.ok 9⟩
     rfl rfl⟩

/-- Claim C10: `registerModule` checks for a duplicate name before
validating any field — a raw module reusing a registered name is
rejected with the duplicate error (registry unchanged) even when its
phase, dependency list or execute function is invalid; conversely, a
field-validation error is only ever produced for a name not already in
the registry. -/
theorem claim_C10_duplicate_checked_first {ρ : Type} (o : Orchestrator ρ)
    (raw : RawModule ρ) (n : String) (h1 : raw.name = some n)
    (h2 : hasModuleName o n = true) :
    ((registerModule o raw).2 = some (RegError.duplicate (some n)) ∧
     (registerModule o raw).1 = o) ∧
    ∀ (raw' : RawModule ρ) (e : RegError),
      (registerModule o raw').2 = some e → e.isValidationErr = true →
      rawHasName o raw'.name = false := by
  constructor
  · have hr : rawHasName o raw.name = true := by rw [h1]; exact h2
    have hreg : registerModule o raw = (o, some (RegError.duplicate raw.name)) := by
      unfold registerModule
      rw [if_pos hr]
    rw [hreg, h1]
    exact ⟨rfl, rfl⟩
  · intro raw' e he hval
    by_cases hr' : rawHasName o raw'.name = true
    · exfalso
      have hreg : registerModule o raw' = (o, some (RegError.duplicate raw'.name)) := by
        unfold registerModule
        rw [if_pos hr']
      rw [hreg] at he
      have : e = RegError.duplicate raw'.name := by
        simpa using he.symm
      rw [this] at hval
      simp [RegError.isValidationErr] at hval
    · simpa using hr'

/-! Resolver soundness: helper lemmas. -/

theorem findModule_name {ρ : Type} {reg : List (AnalysisModule ρ)}
    {name : String} {m : AnalysisModule ρ}
    (h : findModule reg name = some m) : m ∈ reg ∧ m.name = name := by
  refine ⟨List.mem_of_find?_eq_some h, ?_⟩
  simpa using List.find?_some h

theorem findModule_isSome_of_mem {ρ : Type} {reg : List (AnalysisModule ρ)}
    {m : AnalysisModule ρ} (h : m ∈ reg) :
    (findModule reg m.name).isSome = true := by
  rw [findModule, List.find?_isSome]
  exact ⟨m, h, by simp⟩

theorem mem_regNames_iff {ρ : Type} (reg : List (AnalysisModule ρ))
    (name : String) :
    name ∈ regNames reg ↔ (findModule reg name).isSome = true := by
  constructor
  · intro h
    obtain ⟨m, hm, hname⟩ := List.mem_map.mp h
    rw [findModule, List.find?_isSome]
    exact ⟨m, hm, by simp [hname]⟩
  · intro h
    obtain ⟨m, hm⟩ := Option.isSome_iff_exists.mp h
    obtain ⟨hmem, hname⟩ := findModule_name hm
    exact List.mem_map.mpr ⟨m, hmem, hname⟩

theorem depOn_of_found {ρ : Type} {reg : List (AnalysisModule ρ)}
    {a b : String} {m : AnalysisModule ρ}
    (hfind : findModule reg a = some m) (hdep : b ∈ m.dependencies) :
    depOn reg a b := by
  unfold depOn depOnB
  rw [hfind]
  simpa using hdep

theorem depOn_dest {ρ : Type} {reg : List (AnalysisModule ρ)} {a b : String}
    (h : depOn reg a b) :
    ∃ m, findModule reg a = some m ∧ b ∈ m.dependencies := by
  unfold depOn depOnB at h
  rcases hfind : findModule reg a with _ | m
  · rw [hfind] at h
    simp at h
  · rw [hfind] at h
    exact ⟨m, rfl, by simpa using h⟩

theorem chain'_reflTransGen_getLast {α : Type} (R : α → α → Prop) :
    ∀ (l : List α) (x z : α), List.Chain' R l → x ∈ l →
      l.getLast? = some z → Relation.ReflTransGen R x z := by
  intro l
  induction l with
  | nil => simp
  | cons a t ih =>
    intro x z hch hx hlast
    cases t with
    | nil =>
      simp only [List.mem_singleton] at hx
      simp only [List.getLast?_singleton, Option.some.injEq] at hlast
      rw [hx, hlast]
    | cons b t' =>
      have hR : R a b := (List.chain'_cons.mp hch).1
      have hch' : List.Chain' R (b :: t') := (List.chain'_cons.mp hch).2
      have hlast' : (b :: t').getLast? = some z := by
        rw [← hlast]
        exact List.getLast?_cons_cons.symm
      rcases List.mem_cons.mp hx with rfl | hx'
      · exact Relation.ReflTransGen.head hR
          (ih b z hch' (List.mem_cons_self b t') hlast')
      · exact ih x z hch' hx' hlast'

theorem stinv_nil {ρ : Type} (reg : List (AnalysisModule ρ)) :
    StInv reg ⟨[], [], []⟩ := by
  refine ⟨rfl, ?_, ?_, ?_, ?_, ?_, ?_⟩ <;> simp

theorem visitPost_refl {ρ : Type} {reg : List (AnalysisModule ρ)}
    {st : VisitState ρ} (h : StInv reg st) : VisitPost reg st st :=
  ⟨rfl, ⟨[], by simp⟩, h, fun x hx => Or.inl hx⟩

theorem visitPost_trans {ρ : Type} {reg : List (AnalysisModule ρ)}
    {st₁ st₂ st₃ : VisitState ρ} (h12 : VisitPost reg st₁ st₂)
    (h23 : VisitPost reg st₂ st₃) : VisitPost reg st₁ st₃ := by
  obtain ⟨hv12, ⟨t12, ht12⟩, _hi12, hn12⟩ := h12
  obtain ⟨hv23, ⟨t23, ht23⟩, hi23, hn23⟩ := h23
  refine ⟨hv23.trans hv12,
    ⟨t12 ++ t23, by rw [ht23, ht12, List.append_assoc]⟩, hi23, ?_⟩
  intro x hx
  rcases hn23 x hx with hx2 | hnv2
  · exact hn12 x hx2
  · rw [hv12] at hnv2
    exact Or.inr hnv2

theorem visitPost_visited_subset {ρ : Type} {reg : List (AnalysisModule ρ)}
    {st st' : VisitState ρ} (h : VisitPost reg st st') :
    ∀ x ∈ st.visited, x ∈ st'.visited := by
  obtain ⟨_, ⟨t, ht⟩, _, _⟩ := h
  intro x hx
  rw [ht]
  exact List.mem_append_left t hx

theorem visitFold_sound {ρ : Type} (reg : List (AnalysisModule ρ)) (fuel : Nat)
    (ih : ∀ (st : VisitState ρ) (name : String),
      VisitPre reg fuel st →
      (∀ x, st.visiting.getLast? = some x → depOn reg x name) →
      (findModule reg name).isSome = true →
      ErrPost reg (visit reg fuel st name) ∧
      ∀ st', visit reg fuel st name = .ok st' →
        VisitPost reg st st' ∧ name ∈ st'.visited) :
    ∀ (deps : List String) (st : VisitState ρ) (dependent : String)
      (M : AnalysisModule ρ),
      VisitPre reg fuel st →
      st.visiting.getLast? = some dependent →
      findModule reg dependent = some M →
      (∀ d ∈ deps, d ∈ M.dependencies) →
      ErrPost reg (visitFold (fun st' dep => visit reg fuel st' dep) reg
        dependent st deps) ∧
      ∀ st', visitFold (fun st' dep => visit reg fuel st' dep) reg dependent
          st deps = .ok st' →
        VisitPost reg st st' ∧ ∀ d ∈ deps, d ∈ st'.visited := by
  intro deps
  induction deps with
  | nil =>
    intro st dependent M hpre _hlast _hfind _hdeps
    constructor
    · exact ⟨by simp [visitFold], fun n => by simp [visitFold],
        fun c hc => by simp [visitFold] at hc,
        fun a b hab => by simp [visitFold] at hab⟩
    · intro st' hok
      have heq : st = st' := by simpa [visitFold] using hok
      subst heq
      exact ⟨visitPost_refl hpre.1, by simp⟩
  | cons dep rest ihrest =>
    intro st dependent M hpre hlast hfind hdeps
    by_cases hds : (findModule reg dep).isSome = true
    · have hedge : ∀ x, st.visiting.getLast? = some x → depOn reg x dep := by
        intro x hx
        rw [hlast] at hx
        cases hx
        exact depOn_of_found hfind (hdeps dep (by simp))
      have hvisit := ih st dep hpre hedge hds
      cases hv : visit reg fuel st dep with
      | error e =>
        have hfold : visitFold (fun st' dep => visit reg fuel st' dep) reg
            dependent st (dep :: rest) = .error e := by
          simp [visitFold, hds, hv]
        rw [hfold]
        rw [hv] at hvisit
        exact ⟨hvisit.1, fun st' h => by simp at h⟩
      | ok st₁ =>
        have hpost := hvisit.2 st₁ hv
        have hveq : st₁.visiting = st.visiting := hpost.1.1
        have hpre₁ : VisitPre reg fuel st₁ := by
          obtain ⟨_hinv, hnd, hsub, hch, hbound⟩ := hpre
          refine ⟨hpost.1.2.2.1, ?_, ?_, ?_, ?_⟩
          · rw [hveq]; exact hnd
          · rw [hveq]; exact hsub
          · rw [hveq]; exact hch
          · rw [hveq]; exact hbound
        have hlast₁ : st₁.visiting.getLast? = some dependent := by
          rw [hveq]; exact hlast
        have hrest := ihrest st₁ dependent M hpre₁ hlast₁ hfind
          (fun d hd => hdeps d (List.mem_cons_of_mem _ hd))
        have hfold : visitFold (fun st' dep => visit reg fuel st' dep) reg
            dependent st (dep :: rest) =
            visitFold (fun st' dep => visit reg fuel st' dep) reg dependent
              st₁ rest := by
          simp [visitFold, hds, hv]
        rw [hfold]
        refine ⟨hrest.1, ?_⟩
        intro st' hok
        have hr := hrest.2 st' hok
        refine ⟨visitPost_trans hpost.1 hr.1, ?_⟩
        intro d hd
        rcases List.mem_cons.mp hd with rfl | hd'
        · exact visitPost_visited_subset hr.1 d hpost.2
        · exact hr.2 d hd'
    · have hnone : findModule reg dep = none := by
        rcases h : findModule reg dep with _ | mm
        · rfl
        · rw [h] at hds; simp at hds
      have hfold : visitFold (fun st' dep => visit reg fuel st' dep) reg
          dependent st (dep :: rest) = .error (.missingDep dependent dep) := by
        simp [visitFold, hds]
      rw [hfold]
      constructor
      · refine ⟨by simp, fun n => by simp, fun c hc => by simp at hc, ?_⟩
        intro a b hab
        have hab' : dependent = a ∧ dep = b := by simpa using hab
        obtain ⟨rfl, rfl⟩ := hab'
        exact ⟨M, hfind, hdeps dep (by simp), hnone⟩
      · intro st' h
        simp at h

theorem visit_circular_eq {ρ : Type} (reg : List (AnalysisModule ρ))
    (fuel : Nat) (st : VisitState ρ) (name : String)
    (h1 : name ∈ st.visiting) :
    visit reg (fuel + 1) st name = .error (.circular name) := by
  simp [visit, h1]

theorem visit_visited_eq {ρ : Type} (reg : List (AnalysisModule ρ))
    (fuel : Nat) (st : VisitState ρ) (name : String)
    (h1 : name ∉ st.visiting) (h2 : name ∈ st.visited) :
    visit reg (fuel + 1) st name = .ok st := by
  simp [visit, h1, h2]

theorem visit_succ_eq {ρ : Type} (reg : List (AnalysisModule ρ))
    (fuel : Nat) (st : VisitState ρ) (name : String) (m : AnalysisModule ρ)
    (h1 : name ∉ st.visiting) (h2 : name ∉ st.visited)
    (h3 : findModule reg name = some m) :
    visit reg (fuel + 1) st name =
      match visitFold (fun st' dep => visit reg fuel st' dep) reg name
          ⟨st.visiting ++ [name], st.visited, st.order⟩ m.dependencies with
      | .error e => .error e
      | .ok st' => .ok ⟨st'.visiting.erase name, st'.visited ++ [name],
          st'.order ++ [m]⟩ := by
  simp [visit, h1, h2, h3]

theorem visit_sound {ρ : Type} (reg : List (AnalysisModule ρ)) :
    ∀ (fuel : Nat) (st : VisitState ρ) (name : String),
      VisitPre reg fuel st →
      (∀ x, st.visiting.getLast? = some x → depOn reg x name) →
      (findModule reg name).isSome = true →
      ErrPost reg (visit reg fuel st name) ∧
      ∀ st', visit reg fuel st name = .ok st' →
        VisitPost reg st st' ∧ name ∈ st'.visited := by
  intro fuel
  induction fuel with
  | zero =>
    intro st name hpre _hedge _hfind
    exfalso
    obtain ⟨_, hnd, hsub, _, hbound⟩ := hpre
    have hle : st.visiting.length ≤ (regNames reg).length :=
      (hnd.subperm hsub).length_le
    omega
  | succ fuel ihf =>
    intro st name hpre hedge hfind
    by_cases hvtg : st.visiting.contains name = true
    · have hmem : name ∈ st.visiting := by simpa using hvtg
      rw [visit_circular_eq reg fuel st name hmem]
      constructor
      · refine ⟨by simp, fun n => by simp, ?_, fun a b hab => by simp at hab⟩
        intro c hc
        have hc' : name = c := by simpa using hc
        subst hc'
        have hne : st.visiting ≠ [] := by
          intro h
          rw [h] at hmem
          simp at hmem
        obtain ⟨z, hz⟩ := Option.isSome_iff_exists.mp
          (List.getLast?_isSome.mpr hne)
        have hrtg : Relation.ReflTransGen (depOn reg) name z :=
          chain'_reflTransGen_getLast _ _ _ _ hpre.2.2.2.1 hmem hz
        exact Relation.TransGen.tail' hrtg (hedge z hz)
      · intro st' h
        simp at h
    · have hnomem : name ∉ st.visiting := by simpa using hvtg
      by_cases hvtd : st.visited.contains name = true
      · have hmem : name ∈ st.visited := by simpa using hvtd
        rw [visit_visited_eq reg fuel st name hnomem hmem]
        refine ⟨⟨by simp, fun n => by simp, fun c hc => by simp at hc,
          fun a b hab => by simp at hab⟩, ?_⟩
        intro st' h
        have heq : st = st' := by simpa using h
        subst heq
        exact ⟨visitPost_refl hpre.1, hmem⟩
      · rcases hfm : findModule reg name with _ | m
        · rw [hfm] at hfind
          simp at hfind
        · have hnamem := findModule_name hfm
          have hnotvisited : name ∉ st.visited := by simpa using hvtd
          obtain ⟨hinv, hnd, hsub, hch, hbound⟩ := hpre
          have hpre₁ : VisitPre reg fuel
              ⟨st.visiting ++ [name], st.visited, st.order⟩ := by
            refine ⟨⟨hinv.ordNames, hinv.ordFound, hinv.nodup, hinv.visSub,
              hinv.closed, hinv.pairw, hinv.irrefl⟩, ?_, ?_, ?_, ?_⟩
            · simpa [List.nodup_append] using ⟨hnd, hnomem⟩
            · intro x hx
              rcases List.mem_append.mp hx with hx | hx
              · exact hsub x hx
              · have hxn : x = name := by simpa using hx
                rw [hxn]
                exact (mem_regNames_iff reg name).mpr hfind
            · rw [List.chain'_append]
              refine ⟨hch, by simp, ?_⟩
              intro x hx y hy
              have hy' : name = y := by simpa using hy
              subst hy'
              exact hedge x (Option.mem_def.mp hx)
            · simp only [List.length_append, List.length_singleton]
              omega
          have hlast₁ :
              (⟨st.visiting ++ [name], st.visited, st.order⟩ :
                VisitState ρ).visiting.getLast? = some name := by
            simp
          have hfold := visitFold_sound reg fuel ihf m.dependencies
            ⟨st.visiting ++ [name], st.visited, st.order⟩ name m hpre₁
            hlast₁ hfm (fun d hd => hd)
          have hunfold := visit_succ_eq reg fuel st name m hnomem
            hnotvisited hfm
          cases hfr : visitFold (fun st' dep => visit reg fuel st' dep) reg
              name ⟨st.visiting ++ [name], st.visited, st.order⟩
              m.dependencies with
          | error e =>
            rw [hfr] at hunfold
            have hvis : visit reg (fuel + 1) st name = .error e := hunfold
            rw [hvis]
            rw [hfr] at hfold
            exact ⟨hfold.1, fun st' h => by simp at h⟩
          | ok st' =>
            have hpost := hfold.2 st' hfr
            have hveq : st'.visiting = st.visiting ++ [name] := hpost.1.1
            have hnotvis' : name ∉ st'.visited := by
              intro hmem'
              rcases hpost.1.2.2.2 name hmem' with h | h
              · exact hnotvisited h
              · exact h (by simp)
            have hstinv' : StInv reg st' := hpost.1.2.2.1
            rw [hfr] at hunfold
            have hvis : visit reg (fuel + 1) st name =
                .ok ⟨st'.visiting.erase name, st'.visited ++ [name],
                  st'.order ++ [m]⟩ := hunfold
            rw [hvis]
            refine ⟨⟨by simp, fun n => by simp, fun c hc => by simp at hc,
              fun a b hab => by simp at hab⟩, ?_⟩
            intro st₃ h
            have heq : (⟨st'.visiting.erase name, st'.visited ++ [name],
                st'.order ++ [m]⟩ : VisitState ρ) = st₃ := by
              simpa using h
            subst heq
            have hvst₂ : st'.visiting.erase name = st.visiting := by
              rw [hveq, List.erase_append_right _ hnomem,
                List.erase_cons_head, List.append_nil]
            have hmname : m.name = name := hnamem.2
            have hinv₂ : StInv reg ⟨st'.visiting.erase name,
                st'.visited ++ [name], st'.order ++ [m]⟩ := by
              refine ⟨?_, ?_, ?_, ?_, ?_, ?_, ?_⟩
              · show (st'.order ++ [m]).map (fun m => m.name) =
                  st'.visited ++ [name]
                rw [List.map_append, hstinv'.ordNames]
                simp [hmname]
              · intro mm hmm
                rcases List.mem_append.mp hmm with h | h
                · exact hstinv'.ordFound mm h
                · have : mm = m := by simpa using h
                  subst this
                  rw [hmname]
                  exact hfm
              · show (st'.visited ++ [name]).Nodup
                simpa [List.nodup_append] using ⟨hstinv'.nodup, hnotvis'⟩
              · intro a ha
                rcases List.mem_append.mp ha with h | h
                · exact hstinv'.visSub a h
                · have han : a = name := by simpa using h
                  rw [han]
                  exact (mem_regNames_iff reg name).mpr hfind
              · intro a ha b hdep
                rcases List.mem_append.mp ha with h | h
                · exact List.mem_append_left _ (hstinv'.closed a h b hdep)
                · have han : a = name := by simpa using h
                  rw [han] at hdep
                  obtain ⟨m', hm', hb⟩ := depOn_dest hdep
                  rw [hfm] at hm'
                  cases hm'
                  exact List.mem_append_left _ (hpost.2 b hb)
              · show List.Pairwise (fun a b => ¬ depOn reg a b)
                  (st'.visited ++ [name])
                rw [List.pairwise_append]
                refine ⟨hstinv'.pairw, by simp, ?_⟩
                intro a ha b hb
                have hbn : b = name := by simpa using hb
                rw [hbn]
                intro hdep
                exact hnotvis' (hstinv'.closed a ha name hdep)
              · intro a ha
                rcases List.mem_append.mp ha with h | h
                · exact hstinv'.irrefl a h
                · have han : a = name := by simpa using h
                  rw [han]
                  intro hdep
                  obtain ⟨m', hm', hb⟩ := depOn_dest hdep
                  rw [hfm] at hm'
                  cases hm'
                  exact hnotvis' (hpost.2 name hb)
            refine ⟨⟨hvst₂, ?_, hinv₂, ?_⟩, by simp⟩
            · obtain ⟨t, ht⟩ := hpost.1.2.1
              refine ⟨t ++ [name], ?_⟩
              show st'.visited ++ [name] = st.visited ++ (t ++ [name])
              rw [← List.append_assoc]
              exact congrArg (· ++ [name]) ht
            · intro x hx
              rcases List.mem_append.mp hx with h | h
              · rcases hpost.1.2.2.2 x h with h' | h'
                · exact Or.inl h'
                · refine Or.inr ?_
                  intro hx'
                  exact h' (List.mem_append_left _ hx')
              · have : x = name := by simpa using h
                subst this
                exact Or.inr hnomem

theorem claim_C10_duplicate_checked_first_witness :
    (sampleRaw.name = some "performance" ∧
      hasModuleName sampleOrch "performance" = true) ∧
    (((registerModule sampleOrch sampleRaw).2 =
        some (RegError.duplicate (some "performance")) ∧
      (registerModule sampleOrch sampleRaw).1 = sampleOrch) ∧
     ∀ (raw' : RawModule Nat) (e : RegError),
       (registerModule sampleOrch raw').2 = some e → e.isValidationErr = true →
       rawHasName sampleOrch raw'.name = false) :=
  ⟨⟨rfl, by decide⟩,
   claim_C10_duplicate_checked_first sampleOrch sampleRaw "performance" rfl
     (by decide)⟩

theorem visitAll_sound {ρ : Type} (reg : List (AnalysisModule ρ)) (fuel : Nat) :
    ∀ (ms : List (AnalysisModule ρ)) (st : VisitState ρ),
      VisitPre reg fuel st → st.visiting = [] → (∀ m ∈ ms, m ∈ reg) →
      ErrPost reg (visitAll reg fuel st ms) ∧
      ∀ st', visitAll reg fuel st ms = .ok st' →
        VisitPost reg st st' ∧ ∀ m ∈ ms, m.name ∈ st'.visited := by
  intro ms
  induction ms with
  | nil =>
    intro st hpre _hvis _hms
    constructor
    · exact ⟨by simp [visitAll], fun n => by simp [visitAll],
        fun c hc => by simp [visitAll] at hc,
        fun a b hab => by simp [visitAll] at hab⟩
    · intro st' hok
      have heq : st = st' := by simpa [visitAll] using hok
      rw [← heq]
      exact ⟨visitPost_refl hpre.1, by simp⟩
  | cons m rest ih =>
    intro st hpre hvisnil hms
    have hedge : ∀ x, st.visiting.getLast? = some x → depOn reg x m.name := by
      intro x hx
      rw [hvisnil] at hx
      simp at hx
    have hfindm : (findModule reg m.name).isSome = true :=
      findModule_isSome_of_mem (hms m (by simp))
    have hv := visit_sound reg fuel st m.name hpre hedge hfindm
    cases hvr : visit reg fuel st m.name with
    | error e =>
      have hall : visitAll reg fuel st (m :: rest) = .error e := by
        simp [visitAll, hvr]
      rw [hall]
      rw [hvr] at hv
      exact ⟨hv.1, fun st' h => by simp at h⟩
    | ok st₁ =>
      have hpost := hv.2 st₁ hvr
      have hall : visitAll reg fuel st (m :: rest) =
          visitAll reg fuel st₁ rest := by
        simp [visitAll, hvr]
      rw [hall]
      have hpre₁ : VisitPre reg fuel st₁ := by
        obtain ⟨_hi, hnd, hsub, hch, hbound⟩ := hpre
        refine ⟨hpost.1.2.2.1, ?_, ?_, ?_, ?_⟩
        · rw [hpost.1.1]; exact hnd
        · rw [hpost.1.1]; exact hsub
        · rw [hpost.1.1]; exact hch
        · rw [hpost.1.1]; exact hbound
      have hvis₁ : st₁.visiting = [] := by rw [hpost.1.1, hvisnil]
      have hrest := ih st₁ hpre₁ hvis₁
        (fun x hx => hms x (List.mem_cons_of_mem _ hx))
      refine ⟨hrest.1, ?_⟩
      intro st' hok
      have hr := hrest.2 st' hok
      refine ⟨visitPost_trans hpost.1 hr.1, ?_⟩
      intro x hx
      rcases List.mem_cons.mp hx with rfl | hx'
      · exact visitPost_visited_subset hr.1 x.name hpost.2
      · exact hr.2 x hx'

theorem resolveExecutionOrder_sound {ρ : Type} (o : Orchestrator ρ) :
    (resolveExecutionOrder o ≠ .error .outOfFuel) ∧
    (∀ n, resolveExecutionOrder o ≠ .error (.notFound n)) ∧
    (∀ c, resolveExecutionOrder o = .error (.circular c) →
      Relation.TransGen (depOn o.modules) c c) ∧
    (∀ a b, resolveExecutionOrder o = .error (.missingDep a b) →
      ∃ m, findModule o.modules a = some m ∧ b ∈ m.dependencies ∧
        findModule o.modules b = none) ∧
    (∀ order, resolveExecutionOrder o = .ok order →
      (order.map (fun m => m.name)).Nodup ∧
      (∀ m ∈ order, findModule o.modules m.name = some m) ∧
      (∀ m ∈ o.modules, m.name ∈ order.map (fun m => m.name)) ∧
      (∀ a ∈ order.map (fun m => m.name), a ∈ regNames o.modules) ∧
      (∀ a ∈ order.map (fun m => m.name), ∀ b, depOn o.modules a b →
        b ∈ order.map (fun m => m.name)) ∧
      List.Pairwise (fun a b => ¬ depOn o.modules a b)
        (order.map (fun m => m.name)) ∧
      (∀ a ∈ order.map (fun m => m.name), ¬ depOn o.modules a a)) := by
  have hpre : VisitPre o.modules (o.modules.length + 1) ⟨[], [], []⟩ := by
    refine ⟨stinv_nil _, by simp, by simp, by simp, ?_⟩
    simp [regNames]
  have hall := visitAll_sound o.modules (o.modules.length + 1) o.modules
    ⟨[], [], []⟩ hpre rfl (fun m hm => hm)
  unfold resolveExecutionOrder
  cases hr : visitAll o.modules (o.modules.length + 1) ⟨[], [], []⟩
      o.modules with
  | error e =>
    rw [hr] at hall
    have he := hall.1
    refine ⟨?_, ?_, ?_, ?_, ?_⟩
    · intro h
      have h' : e = ResolveErr.outOfFuel := by simpa using h
      exact he.1 (by rw [h'])
    · intro n h
      have h' : e = ResolveErr.notFound n := by simpa using h
      exact he.2.1 n (by rw [h'])
    · intro c h
      have h' : e = ResolveErr.circular c := by simpa using h
      exact he.2.2.1 c (by rw [h'])
    · intro a b h
      have h' : e = ResolveErr.missingDep a b := by simpa using h
      exact he.2.2.2 a b (by rw [h'])
    · intro order h
      simp at h
  | ok stf =>
    rw [hr] at hall
    have hok := hall.2 stf rfl
    have hinv : StInv o.modules stf := hok.1.2.2.1
    refine ⟨by simp, fun n => by simp, fun c hc => by simp at hc,
      fun a b hab => by simp at hab, ?_⟩
    intro order h
    have horder : stf.order = order := by simpa using h
    have hmapv : order.map (fun m => m.name) = stf.visited := by
      rw [← horder]
      exact hinv.ordNames
    refine ⟨?_, ?_, ?_, ?_, ?_, ?_, ?_⟩
    · rw [hmapv]; exact hinv.nodup
    · intro m hm
      apply hinv.ordFound
      rw [horder]
      exact hm
    · intro m hm
      rw [hmapv]
      exact hok.2 m hm
    · intro a ha
      rw [hmapv] at ha
      exact hinv.visSub a ha
    · intro a ha b hdep
      rw [hmapv] at ha ⊢
      exact hinv.closed a ha b hdep
    · rw [hmapv]; exact hinv.pairw
    · intro a ha
      rw [hmapv] at ha
      exact hinv.irrefl a ha

/-! Graph-side helper lemmas for the claim theorems. -/

theorem transGen_head_exists {α : Type} {r : α → α → Prop} {a b : α}
    (h : Relation.TransGen r a b) : ∃ c, r a c := by
  induction h with
  | single h' => exact ⟨_, h'⟩
  | tail _ _ ih => exact ih

theorem acyclic_of_rank {ρ : Type} (reg : List (AnalysisModule ρ))
    (rank : String → Nat)
    (h : ∀ m ∈ reg, ∀ d ∈ m.dependencies, rank d < rank m.name) :
    ∀ x, ¬ Relation.TransGen (depOn reg) x x := by
  have hstep : ∀ a b, depOn reg a b → rank b < rank a := by
    intro a b hd
    obtain ⟨m, hm, hb⟩ := depOn_dest hd
    obtain ⟨hmem, hname⟩ := findModule_name hm
    have := h m hmem b hb
    rw [hname] at this
    exact this
  have htg : ∀ a b, Relation.TransGen (depOn reg) a b → rank b < rank a := by
    intro a b h'
    induction h' with
    | single h'' => exact hstep _ _ h''
    | tail _ h'' ih => exact (hstep _ _ h'').trans ih
  intro x hx
  exact absurd (htg x x hx) (lt_irrefl _)

theorem findModule_self_of_nodup {ρ : Type} {reg : List (AnalysisModule ρ)}
    (hnd : (reg.map (fun m => m.name)).Nodup) {m : AnalysisModule ρ}
    (hm : m ∈ reg) : findModule reg m.name = some m := by
  induction reg with
  | nil => simp at hm
  | cons x rest ih =>
    have hnd' : (rest.map (fun m => m.name)).Nodup :=
      (List.nodup_cons.mp (by simpa using hnd)).2
    rcases List.mem_cons.mp hm with rfl | hm'
    · simp [findModule]
    · have hx : x.name ≠ m.name := by
        intro h
        have hmem : m.name ∈ rest.map (fun m => m.name) :=
          List.mem_map.mpr ⟨m, hm', rfl⟩
        rw [← h] at hmem
        exact (List.nodup_cons.mp (by simpa using hnd)).1 hmem
      rw [findModule, List.find?_cons_of_neg _ (by simpa using hx)]
      exact ih hnd' hm'

theorem index_lt_of_dep {ρ : Type} {reg : List (AnalysisModule ρ)}
    {L : List String}
    (hcl : ∀ a ∈ L, ∀ b, depOn reg a b → b ∈ L)
    (hpw : List.Pairwise (fun a b => ¬ depOn reg a b) L)
    (hirr : ∀ a ∈ L, ¬ depOn reg a a)
    {a b : String} (ha : a ∈ L) (hdep : depOn reg a b) :
    b ∈ L ∧ List.indexOf b L < List.indexOf a L := by
  have hb : b ∈ L := hcl a ha b hdep
  refine ⟨hb, ?_⟩
  by_contra hlt
  push_neg at hlt
  rcases Nat.lt_or_ge (List.indexOf a L) (List.indexOf b L) with h | h
  · have hia : List.indexOf a L < L.length := List.indexOf_lt_length.mpr ha
    have hib : List.indexOf b L < L.length := List.indexOf_lt_length.mpr hb
    have := List.pairwise_iff_getElem.mp hpw (List.indexOf a L)
      (List.indexOf b L) hia hib h
    rw [List.getElem_indexOf hia, List.getElem_indexOf hib] at this
    exact this hdep
  · have heq : List.indexOf a L = List.indexOf b L := le_antisymm hlt h
    have hia : List.indexOf a L < L.length := List.indexOf_lt_length.mpr ha
    have hib : List.indexOf b L < L.length := List.indexOf_lt_length.mpr hb
    have hab : a = b := by
      have h1 := List.getElem?_indexOf ha
      have h2 := List.getElem?_indexOf hb
      rw [heq] at h1
      exact Option.some.inj (h1.symm.trans h2)
    rw [← hab] at hdep
    exact hirr a ha hdep

theorem index_lt_of_transDep {ρ : Type} {reg : List (AnalysisModule ρ)}
    {L : List String}
    (hcl : ∀ a ∈ L, ∀ b, depOn reg a b → b ∈ L)
    (hpw : List.Pairwise (fun a b => ¬ depOn reg a b) L)
    (hirr : ∀ a ∈ L, ¬ depOn reg a a)
    {a b : String} (htg : Relation.TransGen (depOn reg) a b) (ha : a ∈ L) :
    b ∈ L ∧ List.indexOf b L < List.indexOf a L := by
  induction htg with
  | single h => exact index_lt_of_dep hcl hpw hirr ha h
  | tail _ h ih =>
    obtain ⟨hb', hlt⟩ := ih
    obtain ⟨hc, hlt'⟩ := index_lt_of_dep hcl hpw hirr hb' h
    exact ⟨hc, hlt'.trans hlt⟩

/-- Claim C1: for every registry with distinct module names whose
declared dependencies all name registered modules and whose dependency
graph is acyclic, `resolveExecutionOrder` succeeds with an order that
contains exactly the registered modules, each exactly once (its name
list is duplicate-free and a permutation of the registered names), and
places every module strictly after every module it transitively depends
on. -/
theorem claim_C1_topological_order {ρ : Type} (o : Orchestrator ρ)
    (hnodup : (o.modules.map (fun m => m.name)).Nodup)
    (hdeps : ∀ m ∈ o.modules, ∀ d ∈ m.dependencies,
      (findModule o.modules d).isSome = true)
    (hacyc : ∀ x, ¬ Relation.TransGen (depOn o.modules) x x) :
    ∃ order, resolveExecutionOrder o = .ok order ∧
      (∀ m, m ∈ order ↔ m ∈ o.modules) ∧
      (order.map (fun m => m.name)).Nodup ∧
      (order.map (fun m => m.name)).Perm (o.modules.map (fun m => m.name)) ∧
      (∀ a b, Relation.TransGen (depOn o.modules) a b →
        List.indexOf b (order.map (fun m => m.name)) <
          List.indexOf a (order.map (fun m => m.name))) := by
  have hs := resolveExecutionOrder_sound o
  cases hr : resolveExecutionOrder o with
  | error e =>
    exfalso
    cases e with
    | circular c => exact hacyc c (hs.2.2.1 c hr)
    | notFound n => exact hs.2.1 n hr
    | missingDep a b =>
      obtain ⟨m, hm, hb, hnone⟩ := hs.2.2.2.1 a b hr
      have hd := hdeps m (findModule_name hm).1 b hb
      rw [hnone] at hd
      simp at hd
    | outOfFuel => exact hs.1 hr
  | ok order =>
    obtain ⟨hnd, hfound, hallin, hsub, hclosed, hpw, hirr⟩ :=
      hs.2.2.2.2 order hr
    refine ⟨order, rfl, ?_, hnd, ?_, ?_⟩
    · intro m
      constructor
      · intro hm
        exact (findModule_name (hfound m hm)).1
      · intro hm
        obtain ⟨m', hm', hname⟩ := List.mem_map.mp (hallin m hm)
        have h1 := hfound m' hm'
        rw [hname] at h1
        have h2 := findModule_self_of_nodup hnodup hm
        rw [h1] at h2
        cases h2
        exact hm'
    · have hsub2 : o.modules.map (fun m => m.name) ⊆
          order.map (fun m => m.name) := by
        intro a ha
        obtain ⟨m, hm, rfl⟩ := List.mem_map.mp ha
        exact hallin m hm
      have hsub1 : order.map (fun m => m.name) ⊆
          o.modules.map (fun m => m.name) := by
        intro a ha
        exact hsub a ha
      exact (hnd.subperm hsub1).antisymm (hnodup.subperm hsub2)
    · intro a b htg
      obtain ⟨c, hc⟩ := transGen_head_exists htg
      obtain ⟨m, hm, _⟩ := depOn_dest hc
      have hamem : a ∈ order.map (fun m => m.name) := by
        have hareg : a ∈ regNames o.modules :=
          (mem_regNames_iff _ _).mpr (by rw [hm]; rfl)
        obtain ⟨mm, hmm, hn⟩ := List.mem_map.mp hareg
        rw [← hn]
        exact hallin mm hmm
      exact (index_lt_of_transDep hclosed hpw hirr htg hamem).2

theorem claim_C1_topological_order_witness :
    ((diamondOrch.modules.map (fun m => m.name)).Nodup ∧
     (∀ m ∈ diamondOrch.modules, ∀ d ∈ m.dependencies,
       (findModule diamondOrch.modules d).isSome = true) ∧
     (∀ m ∈ diamondOrch.modules, ∀ d ∈ m.dependencies,
       diamondRank d < diamondRank m.name)) ∧
    (∃ order, resolveExecutionOrder diamondOrch = .ok order ∧
      (∀ m, m ∈ order ↔ m ∈ diamondOrch.modules) ∧
      (order.map (fun m => m.name)).Nodup ∧
      (order.map (fun m => m.name)).Perm
        (diamondOrch.modules.map (fun m => m.name)) ∧
      (∀ a b, Relation.TransGen (depOn diamondOrch.modules) a b →
        List.indexOf b (order.map (fun m => m.name)) <
          List.indexOf a (order.map (fun m => m.name)))) :=
  ⟨⟨by decide, by decide, by decide⟩,
   claim_C1_topological_order diamondOrch (by decide) (by decide)
     (acyclic_of_rank diamondOrch.modules diamondRank (by decide))⟩

/-- Claim C3, amended: for every registry whose declared dependencies all
name registered modules, a dependency cycle makes `executeAnalysis`
reject with a circular-dependency error naming a module that lies on a
cycle, and the run emits only the `error` event — no `moduleStart` fires
and no module executes.  (Without the all-dependencies-registered
hypothesis the rejection can instead be the missing-dependency error;
see the counterexample.) -/
theorem claim_C3_cycle_rejected {ρ : Type} (o : Orchestrator ρ)
    (job : AnalysisJob)
    (hdeps : ∀ m ∈ o.modules, ∀ d ∈ m.dependencies,
      (findModule o.modules d).isSome = true)
    (hcyc : ∃ x, Relation.TransGen (depOn o.modules) x x) :
    ∃ c, resolveExecutionOrder o = .error (.circular c) ∧
      Relation.TransGen (depOn o.modules) c c ∧
      (executeAnalysis o job).result = .error (.circular c) ∧
      (executeAnalysis o job).events = [.error (.circular c)] := by
  have hs := resolveExecutionOrder_sound o
  cases hr : resolveExecutionOrder o with
  | error e =>
    cases e with
    | circular c =>
      refine ⟨c, rfl, hs.2.2.1 c hr, ?_, ?_⟩ <;> simp [executeAnalysis, hr]
    | notFound n => exact absurd hr (hs.2.1 n)
    | missingDep a b =>
      obtain ⟨m, hm, hb, hnone⟩ := hs.2.2.2.1 a b hr
      have hd := hdeps m (findModule_name hm).1 b hb
      rw [hnone] at hd
      simp at hd
    | outOfFuel => exact absurd hr hs.1
  | ok order =>
    exfalso
    obtain ⟨x, hx⟩ := hcyc
    obtain ⟨hnd, hfound, hallin, hsub, hclosed, hpw, hirr⟩ :=
      hs.2.2.2.2 order hr
    obtain ⟨c, hc⟩ := transGen_head_exists hx
    obtain ⟨m, hm, _⟩ := depOn_dest hc
    have hxmem : x ∈ order.map (fun m => m.name) := by
      have hxreg : x ∈ regNames o.modules :=
        (mem_regNames_iff _ _).mpr (by rw [hm]; rfl)
      obtain ⟨mm, hmm, hn⟩ := List.mem_map.mp hxreg
      rw [← hn]
      exact hallin mm hmm
    exact absurd (index_lt_of_transDep hclosed hpw hirr hx hxmem).2
      (lt_irrefl _)

theorem claim_C3_cycle_rejected_witness :
    (∀ m ∈ cycleOrch.modules, ∀ d ∈ m.dependencies,
      (findModule cycleOrch.modules d).isSome = true) ∧
    (∃ c, resolveExecutionOrder cycleOrch = .error (.circular c) ∧
      Relation.TransGen (depOn cycleOrch.modules) c c ∧
      (executeAnalysis cycleOrch sampleJob).result = .error (.circular c) ∧
      (executeAnalysis cycleOrch sampleJob).events =
        [.error (.circular c)]) :=
  by
  have h1 : depOn cycleOrch.modules "a" "b" := by decide
  have h2 : depOn cycleOrch.modules "b" "a" := by decide
  exact ⟨by decide,
    claim_C3_cycle_rejected cycleOrch sampleJob (by decide)
      ⟨"a", Relation.TransGen.head h1 (Relation.TransGen.single h2)⟩⟩

/-- Claim C3, counterexample to the original statement: the registry
`mixedErrOrch` contains the dependency cycle b → c → b, yet
`executeAnalysis` rejects with the missing-dependency error for a → x
(met first in registration order), which is not a circular-dependency
error. -/
theorem claim_C3_counterexample :
    Relation.TransGen (depOn mixedErrOrch.modules) "b" "b" ∧
    (executeAnalysis mixedErrOrch sampleJob).result =
      .error (.missingDep "a" "x") ∧
    ResolveErr.isCircular (.missingDep "a" "x") = false := by
  have h1 : depOn mixedErrOrch.modules "b" "c" := by decide
  have h2 : depOn mixedErrOrch.modules "c" "b" := by decide
  exact ⟨Relation.TransGen.head h1 (Relation.TransGen.single h2), rfl, rfl⟩

/-- Claim C4, amended: whenever a registered module (names distinct)
declares a dependency on a name not in the registry, `executeAnalysis`
rejects before any module's execute is invoked, emitting only the
`error` event; when the dependency graph is additionally acyclic, the
error is the missing-dependency error naming both the dependent module
and the missing dependency.  (A dependency cycle met earlier in the
traversal can surface as a circular-dependency error instead; see the
counterexample.) -/
theorem claim_C4_missing_dependency_rejected {ρ : Type} (o : Orchestrator ρ)
    (job : AnalysisJob)
    (hnodup : (o.modules.map (fun m => m.name)).Nodup)
    (hmiss : ∃ m ∈ o.modules, ∃ d ∈ m.dependencies,
      findModule o.modules d = none) :
    (∃ e, resolveExecutionOrder o = .error e ∧
      (executeAnalysis o job).result = .error e ∧
      (executeAnalysis o job).events = [.error e]) ∧
    ((∀ x, ¬ Relation.TransGen (depOn o.modules) x x) →
      ∃ a b m, resolveExecutionOrder o = .error (.missingDep a b) ∧
        findModule o.modules a = some m ∧ b ∈ m.dependencies ∧
        findModule o.modules b = none) := by
  have hs := resolveExecutionOrder_sound o
  cases hr : resolveExecutionOrder o with
  | ok order =>
    exfalso
    obtain ⟨m, hm, d, hd, hnone⟩ := hmiss
    obtain ⟨hnd, hfound, hallin, hsub, hclosed, hpw, hirr⟩ :=
      hs.2.2.2.2 order hr
    have hself := findModule_self_of_nodup hnodup hm
    have hdep : depOn o.modules m.name d := depOn_of_found hself hd
    have hmem : m.name ∈ order.map (fun m => m.name) := hallin m hm
    have hdmem := hclosed m.name hmem d hdep
    have hdreg : d ∈ regNames o.modules := hsub d hdmem
    have hds := (mem_regNames_iff _ _).mp hdreg
    rw [hnone] at hds
    simp at hds
  | error e =>
    cases e with
    | outOfFuel => exact absurd hr hs.1
    | notFound n => exact absurd hr (hs.2.1 n)
    | circular c =>
      constructor
      · exact ⟨.circular c, rfl, by simp [executeAnalysis, hr],
          by simp [executeAnalysis, hr]⟩
      · intro hacyc
        exact absurd (hs.2.2.1 c hr) (hacyc c)
    | missingDep a b =>
      obtain ⟨m, hm, hb, hnone⟩ := hs.2.2.2.1 a b hr
      constructor
      · exact ⟨.missingDep a b, rfl, by simp [executeAnalysis, hr],
          by simp [executeAnalysis, hr]⟩
      · intro _hacyc
        exact ⟨a, b, m, rfl, hm, hb, hnone⟩

theorem claim_C4_missing_dependency_rejected_witness :
    ((missingDepOrch.modules.map (fun m => m.name)).Nodup ∧
     findModule missingDepOrch.modules "x" = none) ∧
    ((∃ e, resolveExecutionOrder missingDepOrch = .error e ∧
       (executeAnalysis missingDepOrch sampleJob).result = .error e ∧
       (executeAnalysis missingDepOrch sampleJob).events = [.error e]) ∧
     ((∀ x, ¬ Relation.TransGen (depOn missingDepOrch.modules) x x) →
       ∃ a b m, resolveExecutionOrder missingDepOrch =
           .error (.missingDep a b) ∧
         findModule missingDepOrch.modules a = some m ∧
         b ∈ m.dependencies ∧ findModule missingDepOrch.modules b = none)) :=
  ⟨⟨by decide, rfl⟩,
   claim_C4_missing_dependency_rejected missingDepOrch sampleJob (by decide)
     ⟨missingDepModule, by simp [missingDepOrch], "x",
       by simp [missingDepModule], rfl⟩⟩

/-- Claim C4, counterexample to the original statement: in
`cycleFirstOrch` module b depends on the unregistered name x, yet the
rejection error is the circular-dependency error for the self-loop a → a
(met first in registration order), which names neither the dependent b
nor the missing dependency x. -/
theorem claim_C4_counterexample :
    depOnB cycleFirstOrch.modules "b" "x" = true ∧
    findModule cycleFirstOrch.modules "x" = none ∧
    (executeAnalysis cycleFirstOrch sampleJob).result =
      .error (.circular "a") ∧
    ResolveErr.isMissingDep (.circular "a") = false :=
  ⟨by decide, rfl, rfl, rfl⟩

/-! Executor lemmas: the shape of the event trace and the results table
produced by the sequential module loop. -/

theorem string_append_left_cancel {s t₁ t₂ : String}
    (h : s ++ t₁ = s ++ t₂) : t₁ = t₂ := by
  have hd : (s ++ t₁).data = (s ++ t₂).data := by rw [h]
  rw [String.data_append, String.data_append] at hd
  have h' := List.append_cancel_left hd
  cases t₁
  cases t₂
  exact congrArg String.mk h'

theorem order_mem_of_mem {ρ : Type} {o : Orchestrator ρ}
    {order : List (AnalysisModule ρ)}
    (hnodup : (o.modules.map (fun m => m.name)).Nodup)
    (hr : resolveExecutionOrder o = .ok order) {A : AnalysisModule ρ}
    (hA : A ∈ o.modules) : A ∈ order := by
  obtain ⟨hnd, hfound, hallin, _⟩ := (resolveExecutionOrder_sound o).2.2.2.2
    order hr
  obtain ⟨m', hm', hname⟩ := List.mem_map.mp (hallin A hA)
  have h1 := hfound m' hm'
  rw [hname] at h1
  have h2 := findModule_self_of_nodup hnodup hA
  rw [h1] at h2
  cases h2
  exact hm'

theorem order_unique_name {ρ : Type} {o : Orchestrator ρ}
    {order : List (AnalysisModule ρ)}
    (hnodup : (o.modules.map (fun m => m.name)).Nodup)
    (hr : resolveExecutionOrder o = .ok order) {A : AnalysisModule ρ}
    (hA : A ∈ o.modules) :
    ∀ m' ∈ order, m'.name = A.name → m' = A := by
  intro m' hm' hname
  have hfound := ((resolveExecutionOrder_sound o).2.2.2.2 order hr).2.1
  have h1 := hfound m' hm'
  rw [hname] at h1
  have h2 := findModule_self_of_nodup hnodup hA
  rw [h1] at h2
  exact Option.some.inj h2

theorem runModules_start_mem {ρ : Type} (eo : List (AnalysisModule ρ)) :
    ∀ (ms : List (AnalysisModule ρ)) (ctx : AnalysisContext ρ)
      (res : List (String × ρ)) (m : AnalysisModule ρ), m ∈ ms →
      OrchEvent.moduleStart m.name ∈ (runModules eo ctx res ms).2.2 := by
  intro ms
  induction ms with
  | nil =>
    intro _ _ _ h
    simp at h
  | cons m₀ rest ih =>
    intro ctx res m hm
    simp only [runModules]
    rcases List.mem_cons.mp hm with rfl | hm'
    · apply List.mem_append_left
      cases hex : m.execute ctx <;> simp [stepModule, hex]
    · exact List.mem_append_right _ (ih _ _ m hm')

theorem runModules_error_mem {ρ : Type} (eo : List (AnalysisModule ρ)) :
    ∀ (ms : List (AnalysisModule ρ)) (ctx : AnalysisContext ρ)
      (res : List (String × ρ)) (A : AnalysisModule ρ) (eA : String),
      A ∈ ms → (∀ c, A.execute c = .error eA) →
      OrchEvent.moduleError A.name eA ∈ (runModules eo ctx res ms).2.2 := by
  intro ms
  induction ms with
  | nil =>
    intro _ _ _ _ h _
    simp at h
  | cons m₀ rest ih =>
    intro ctx res A eA hm hfail
    simp only [runModules]
    rcases List.mem_cons.mp hm with rfl | hm'
    · apply List.mem_append_left
      simp [stepModule, hfail ctx]
    · exact List.mem_append_right _ (ih _ _ A eA hm' hfail)

theorem runModules_complete_mem {ρ : Type} (eo : List (AnalysisModule ρ)) :
    ∀ (ms : List (AnalysisModule ρ)) (ctx : AnalysisContext ρ)
      (res : List (String × ρ)) (B : AnalysisModule ρ) (vB : ρ),
      B ∈ ms → (∀ c, B.execute c = .ok vB) →
      OrchEvent.moduleComplete B.name vB ∈ (runModules eo ctx res ms).2.2 := by
  intro ms
  induction ms with
  | nil =>
    intro _ _ _ _ h _
    simp at h
  | cons m₀ rest ih =>
    intro ctx res B vB hm hok
    simp only [runModules]
    rcases List.mem_cons.mp hm with rfl | hm'
    · apply List.mem_append_left
      simp [stepModule, hok ctx]
    · exact List.mem_append_right _ (ih _ _ B vB hm' hok)

theorem runModules_progress_mem {ρ : Type} (eo : List (AnalysisModule ρ)) :
    ∀ (ms : List (AnalysisModule ρ)) (ctx : AnalysisContext ρ)
      (res : List (String × ρ)) (B : AnalysisModule ρ),
      B ∈ ms → (∀ c, (B.execute c).isOk = true) →
      OrchEvent.progress (mkProgressUpdate eo B) ∈
        (runModules eo ctx res ms).2.2 := by
  intro ms
  induction ms with
  | nil =>
    intro _ _ _ h _
    simp at h
  | cons m₀ rest ih =>
    intro ctx res B hm hok
    simp only [runModules]
    rcases List.mem_cons.mp hm with rfl | hm'
    · apply List.mem_append_left
      cases hex : B.execute ctx with
      | error e =>
        have hik := hok ctx
        rw [hex] at hik
        simp [Except.isOk, Except.toBool] at hik
      | ok r => simp [stepModule, hex]
    · exact List.mem_append_right _ (ih _ _ B hm' hok)

theorem runModules_lookup_preserved {ρ : Type} (eo : List (AnalysisModule ρ)) :
    ∀ (ms : List (AnalysisModule ρ)) (ctx : AnalysisContext ρ)
      (res : List (String × ρ)) (k : String),
      (∀ m ∈ ms, m.name ≠ k) →
      listGet? (runModules eo ctx res ms).2.1 k = listGet? res k := by
  intro ms
  induction ms with
  | nil =>
    intro _ _ _ _
    simp [runModules]
  | cons m₀ rest ih =>
    intro ctx res k hne
    simp only [runModules]
    rw [ih _ _ k (fun m hm => hne m (List.mem_cons_of_mem _ hm))]
    cases hex : m₀.execute ctx with
    | error e => simp [stepModule, hex]
    | ok r =>
      simp only [stepModule, hex]
      exact listGet?_listSet_ne res m₀.name k r (hne m₀ (by simp))

theorem runModules_lookup_ok {ρ : Type} (eo : List (AnalysisModule ρ)) :
    ∀ (ms : List (AnalysisModule ρ)) (ctx : AnalysisContext ρ)
      (res : List (String × ρ)) (B : AnalysisModule ρ) (vB : ρ),
      (ms.map (fun m => m.name)).Nodup →
      B ∈ ms → (∀ c, B.execute c = .ok vB) →
      listGet? (runModules eo ctx res ms).2.1 B.name = some vB := by
  intro ms
  induction ms with
  | nil =>
    intro _ _ _ _ _ h _
    simp at h
  | cons m₀ rest ih =>
    intro ctx res B vB hnd hm hok
    rcases List.mem_cons.mp hm with rfl | hm'
    · simp only [runModules]
      have hne : ∀ m ∈ rest, m.name ≠ B.name := by
        intro m hmr heq
        have h1 : B.name ∈ rest.map (fun m => m.name) :=
          List.mem_map.mpr ⟨m, hmr, heq⟩
        exact (List.nodup_cons.mp (by simpa using hnd)).1 h1
      rw [runModules_lookup_preserved eo rest _ _ B.name hne]
      simp only [stepModule, hok ctx]
      exact listGet?_listSet_self res B.name vB
    · simp only [runModules]
      exact ih _ _ B vB (List.nodup_cons.mp (by simpa using hnd)).2 hm' hok

theorem runModules_lookup_fail {ρ : Type} (eo : List (AnalysisModule ρ)) :
    ∀ (ms : List (AnalysisModule ρ)) (ctx : AnalysisContext ρ)
      (res : List (String × ρ)) (A : AnalysisModule ρ) (eA : String),
      (∀ c, A.execute c = .error eA) →
      (∀ m' ∈ ms, m'.name = A.name → m' = A) →
      listGet? res A.name = none →
      listGet? (runModules eo ctx res ms).2.1 A.name = none := by
  intro ms
  induction ms with
  | nil =>
    intro _ _ _ _ _ _ h
    simpa [runModules] using h
  | cons m₀ rest ih =>
    intro ctx res A eA hfail huniq hres
    simp only [runModules]
    apply ih _ _ A eA hfail
      (fun m' hm' h => huniq m' (List.mem_cons_of_mem _ hm') h)
    by_cases hname : m₀.name = A.name
    · have hm₀ : m₀ = A := huniq m₀ (by simp) hname
      rw [hm₀]
      simp [stepModule, hfail ctx, hres]
    · cases hex : m₀.execute ctx with
      | error e => simpa [stepModule, hex] using hres
      | ok r =>
        simp only [stepModule, hex]
        rw [listGet?_listSet_ne res m₀.name A.name r hname]
        exact hres

theorem runModules_countP_eq {ρ : Type} (eo : List (AnalysisModule ρ)) :
    ∀ (ms : List (AnalysisModule ρ)) (ctx : AnalysisContext ρ)
      (res : List (String × ρ)),
      (runModules eo ctx res ms).2.2.countP isProgressEvent =
      (runModules eo ctx res ms).2.2.countP isModuleCompleteEvent := by
  intro ms
  induction ms with
  | nil =>
    intro _ _
    simp [runModules]
  | cons m₀ rest ih =>
    intro ctx res
    simp only [runModules]
    rw [List.countP_append, List.countP_append, ih]
    cases hex : m₀.execute ctx with
    | error e => simp [stepModule, hex, isProgressEvent, isModuleCompleteEvent]
    | ok r => simp [stepModule, hex, isProgressEvent, isModuleCompleteEvent]

theorem runModules_no_progress_of_fail {ρ : Type}
    (eo : List (AnalysisModule ρ)) :
    ∀ (ms : List (AnalysisModule ρ)) (ctx : AnalysisContext ρ)
      (res : List (String × ρ)) (A : AnalysisModule ρ) (eA : String),
      (∀ c, A.execute c = .error eA) →
      (∀ m' ∈ ms, m'.name = A.name → m' = A) →
      ∀ u, OrchEvent.progress u ∈ (runModules eo ctx res ms).2.2 →
        u.currentTask ≠ "Completed " ++ A.name := by
  intro ms
  induction ms with
  | nil =>
    intro _ _ _ _ _ _ u hu
    simp [runModules] at hu
  | cons m₀ rest ih =>
    intro ctx res A eA hfail huniq u hu
    simp only [runModules] at hu
    rcases List.mem_append.mp hu with hu | hu
    · cases hex : m₀.execute ctx with
      | error e =>
        simp [stepModule, hex] at hu
      | ok r =>
        simp [stepModule, hex] at hu
        rw [hu]
        intro htask
        have hname : m₀.name = A.name :=
          string_append_left_cancel
            (show ("Completed " : String) ++ m₀.name =
              "Completed " ++ A.name from htask)
        have hm₀ : m₀ = A := huniq m₀ (by simp) hname
        rw [hm₀, hfail ctx] at hex
        simp at hex
    · exact ih _ _ A eA hfail
        (fun m' hm' h => huniq m' (List.mem_cons_of_mem _ hm') h) u hu

theorem slotOf_aggregate {ρ : Type} (results : List (String × ρ))
    (n : String) :
    slotOf (aggregateResults results) n =
      if n ∈ wellKnownSlots then listGet? results n else none := by
  simp only [slotOf, aggregateResults, wellKnownSlots]
  split_ifs <;> simp_all

/-- Claim C2: in a run whose resolution succeeds, with a registered
module A whose execute always rejects and a registered module B whose
execute always succeeds, the run is not aborted: `moduleStart` fires for
both, `moduleError` fires for A, `moduleComplete` fires for B,
`executeAnalysis` resolves with an aggregate, the results table maps B's
name to its result and lacks A's name, and in the aggregate A's slot is
absent while B's slot (when B bears a well-known name) holds its
result. -/
theorem claim_C2_graceful_degradation {ρ : Type} (o : Orchestrator ρ)
    (job : AnalysisJob) (A B : AnalysisModule ρ) (eA : String) (vB : ρ)
    (order : List (AnalysisModule ρ))
    (hnodup : (o.modules.map (fun m => m.name)).Nodup)
    (hres : resolveExecutionOrder o = .ok order)
    (hA : A ∈ o.modules) (hB : B ∈ o.modules)
    (hAfail : ∀ c, A.execute c = .error eA)
    (hBok : ∀ c, B.execute c = .ok vB) :
    ∃ agg, (executeAnalysis o job).result = .ok agg ∧
      OrchEvent.moduleStart A.name ∈ (executeAnalysis o job).events ∧
      OrchEvent.moduleStart B.name ∈ (executeAnalysis o job).events ∧
      OrchEvent.moduleError A.name eA ∈ (executeAnalysis o job).events ∧
      OrchEvent.moduleComplete B.name vB ∈ (executeAnalysis o job).events ∧
      listGet? (executeAnalysis o job).final.moduleResults B.name = some vB ∧
      listGet? (executeAnalysis o job).final.moduleResults A.name = none ∧
      slotOf agg A.name = none ∧
      (B.name ∈ wellKnownSlots → slotOf agg B.name = some vB) := by
  have hAo : A ∈ order := order_mem_of_mem hnodup hres hA
  have hBo : B ∈ order := order_mem_of_mem hnodup hres hB
  have huniqA := order_unique_name hnodup hres hA
  have hndo := ((resolveExecutionOrder_sound o).2.2.2.2 order hres).1
  have hexec : executeAnalysis o job =
      { result := .ok (aggregateResults
          (runModules order ⟨job.url, job.options, none⟩ [] order).2.1)
        events :=
          (runModules order ⟨job.url, job.options, none⟩ [] order).2.2
            ++ [.complete (aggregateResults
              (runModules order ⟨job.url, job.options, none⟩ [] order).2.1)]
        final := { o with moduleResults :=
          (runModules order ⟨job.url, job.options, none⟩ [] order).2.1 } } := by
    simp [executeAnalysis, hres]
  rw [hexec]
  have hlookB : listGet?
      (runModules order ⟨job.url, job.options, none⟩ [] order).2.1 B.name =
      some vB :=
    runModules_lookup_ok order order ⟨job.url, job.options, none⟩ [] B vB
      hndo hBo hBok
  have hlookA : listGet?
      (runModules order ⟨job.url, job.options, none⟩ [] order).2.1 A.name =
      none :=
    runModules_lookup_fail order order ⟨job.url, job.options, none⟩ [] A eA
      hAfail huniqA (by simp [listGet?])
  refine ⟨aggregateResults
      (runModules order ⟨job.url, job.options, none⟩ [] order).2.1,
    rfl, ?_, ?_, ?_, ?_, hlookB, hlookA, ?_, ?_⟩
  · exact List.mem_append_left _
      (runModules_start_mem order order ⟨job.url, job.options, none⟩ [] A hAo)
  · exact List.mem_append_left _
      (runModules_start_mem order order ⟨job.url, job.options, none⟩ [] B hBo)
  · exact List.mem_append_left _
      (runModules_error_mem order order ⟨job.url, job.options, none⟩ [] A eA
        hAo hAfail)
  · exact List.mem_append_left _
      (runModules_complete_mem order order ⟨job.url, job.options, none⟩ [] B
        vB hBo hBok)
  · rw [slotOf_aggregate]
    split_ifs with h
    · exact hlookA
    · rfl
  · intro hB'
    rw [slotOf_aggregate, if_pos hB']
    exact hlookB

theorem claim_C2_graceful_degradation_witness :
    ((mixedRunOrch.modules.map (fun m => m.name)).Nodup ∧
      failingModule ∈ mixedRunOrch.modules ∧
      sampleModule ∈ mixedRunOrch.modules) ∧
    (∃ agg, (executeAnalysis mixedRunOrch sampleJob).result = .ok agg ∧
      OrchEvent.moduleStart failingModule.name ∈
        (executeAnalysis mixedRunOrch sampleJob).events ∧
      OrchEvent.moduleStart sampleModule.name ∈
        (executeAnalysis mixedRunOrch sampleJob).events ∧
      OrchEvent.moduleError failingModule.name "boom" ∈
        (executeAnalysis mixedRunOrch sampleJob).events ∧
      OrchEvent.moduleComplete sampleModule.name 5 ∈
        (executeAnalysis mixedRunOrch sampleJob).events ∧
      listGet? (executeAnalysis mixedRunOrch sampleJob).final.moduleResults
        sampleModule.name = some 5 ∧
      listGet? (executeAnalysis mixedRunOrch sampleJob).final.moduleResults
        failingModule.name = none ∧
      slotOf agg failingModule.name = none ∧
      (sampleModule.name ∈ wellKnownSlots →
        slotOf agg sampleModule.name = some 5)) :=
  ⟨⟨by decide, List.mem_cons_self _ _,
    List.mem_cons_of_mem _ (List.mem_cons_self _ _)⟩,
   claim_C2_graceful_degradation mixedRunOrch sampleJob failingModule
     sampleModule "boom" 5 mixedRunOrch.modules (by decide) rfl
     (List.mem_cons_self _ _)
     (List.mem_cons_of_mem _ (List.mem_cons_self _ _))
     (fun _ => rfl) (fun _ => rfl)⟩

/-! Progress-formula lemmas for claim C5. -/

theorem jsRound100_mono {a b N : Nat} (h : a ≤ b) :
    jsRound100 a N ≤ jsRound100 b N :=
  Nat.div_le_div_right (by omega)

theorem jsRound100_self {N : Nat} (h : 0 < N) : jsRound100 N N = 100 := by
  unfold jsRound100
  have h2 : 200 * N + N = N + 2 * N * 100 := by ring
  rw [h2, Nat.add_mul_div_left _ _ (by omega : 0 < 2 * N),
    Nat.div_eq_of_lt (by omega)]

theorem jsFindIndex_append {ρ : Type} (pre : List (AnalysisModule ρ))
    (m : AnalysisModule ρ) (suf : List (AnalysisModule ρ))
    (h : ∀ x ∈ pre, x.name ≠ m.name) :
    jsFindIndex (fun x => x.name == m.name) (pre ++ m :: suf) =
      some pre.length := by
  induction pre with
  | nil => simp [jsFindIndex]
  | cons p rest ih =>
    have hp : (p.name == m.name) = false := by
      simpa using h p (by simp)
    rw [List.cons_append, jsFindIndex]
    rw [if_neg (by simp [hp]),
      ih (fun x hx => h x (List.mem_cons_of_mem _ hx))]
    simp [Nat.add_comm]

theorem calculateProgress_at {ρ : Type} (pre suf : List (AnalysisModule ρ))
    (m : AnalysisModule ρ) (h : ∀ x ∈ pre, x.name ≠ m.name) :
    calculateProgress (pre ++ m :: suf) m.name =
      jsRound100 (pre.length + 1) (pre ++ m :: suf).length := by
  unfold calculateProgress
  rw [jsFindIndex_append pre m suf h]

theorem runModules_progress_trace {ρ : Type}
    (order : List (AnalysisModule ρ))
    (hnd : (order.map (fun m => m.name)).Nodup) :
    ∀ (suf pre : List (AnalysisModule ρ)) (ctx : AnalysisContext ρ)
      (res : List (String × ρ)),
      order = pre ++ suf →
      (∀ m ∈ suf, ∀ c, (m.execute c).isOk = true) →
      (runModules order ctx res suf).2.2.filterMap progressValue? =
        (List.range suf.length).map
          (fun j => jsRound100 (pre.length + j + 1) order.length) := by
  intro suf
  induction suf with
  | nil =>
    intro pre ctx res _ _
    simp [runModules]
  | cons m rest ih =>
    intro pre ctx res horder hsucc
    have hex := hsucc m (by simp)
    cases hexec : m.execute ctx with
    | error e =>
      have hik := hex ctx
      rw [hexec] at hik
      simp [Except.isOk, Except.toBool] at hik
    | ok r =>
      have hpre_ne : ∀ x ∈ pre, x.name ≠ m.name := by
        intro x hx heq
        rw [horder] at hnd
        rw [List.map_append, List.nodup_append] at hnd
        have h1 : x.name ∈ pre.map (fun m => m.name) :=
          List.mem_map.mpr ⟨x, hx, rfl⟩
        have h2 : x.name ∈ (m :: rest).map (fun m => m.name) := by
          rw [heq]
          exact List.mem_map.mpr ⟨m, by simp, rfl⟩
        exact hnd.2.2 h1 h2
      have hcalc : calculateProgress order m.name =
          jsRound100 (pre.length + 1) order.length := by
        conv in calculateProgress order m.name => rw [horder]
        rw [calculateProgress_at pre rest m hpre_ne, ← horder]
      simp only [runModules]
      rw [List.filterMap_append]
      have hstep : (stepModule order ctx res m).2.2 =
          [.moduleStart m.name, .moduleComplete m.name r,
           .progress (mkProgressUpdate order m)] := by
        simp [stepModule, hexec]
      rw [hstep]
      have hstepf : List.filterMap progressValue?
          ([.moduleStart m.name, .moduleComplete m.name r,
            .progress (mkProgressUpdate order m)] : List (OrchEvent ρ)) =
          [(mkProgressUpdate order m).progress] := by
        simp [progressValue?]
      rw [hstepf]
      rw [ih (pre ++ [m]) (stepModule order ctx res m).1
        (stepModule order ctx res m).2.1 (by rw [horder]; simp)
        (fun m' hm' => hsucc m' (List.mem_cons_of_mem _ hm'))]
      have hlen : (pre ++ [m]).length = pre.length + 1 := by simp
      rw [hlen]
      have hhead : (mkProgressUpdate order m).progress =
          jsRound100 (pre.length + 1) order.length := hcalc
      rw [hhead]
      simp only [List.length_cons]
      rw [List.range_succ_eq_map, List.map_cons, List.map_map]
      have htail : List.map
          ((fun j => jsRound100 (pre.length + j + 1) order.length) ∘
            (· + 1)) (List.range rest.length) =
          List.map (fun j => jsRound100 (pre.length + 1 + j + 1)
            order.length) (List.range rest.length) := by
        apply List.map_congr_left
        intro j hj
        simp only [Function.comp_apply]
        have harg : pre.length + (j + 1) + 1 = pre.length + 1 + j + 1 := by
          omega
        rw [harg]
      rw [htail]
      simp

/-- Claim C5: in a run with N registered modules (distinct names, all of
whose executes succeed) whose resolution succeeds, the emitted progress
values are exactly round(100·k/N) for k = 1..N in execution order — in
particular exactly N progress events fire — they are non-decreasing, and
the final one equals 100. -/
theorem claim_C5_progress_values {ρ : Type} (o : Orchestrator ρ)
    (job : AnalysisJob) (order : List (AnalysisModule ρ))
    (hnodup : (o.modules.map (fun m => m.name)).Nodup)
    (hres : resolveExecutionOrder o = .ok order)
    (hsucc : ∀ m ∈ o.modules, ∀ c, (m.execute c).isOk = true) :
    ((executeAnalysis o job).events.filterMap progressValue? =
      (List.range o.modules.length).map
        (fun k => jsRound100 (k + 1) o.modules.length)) ∧
    ((executeAnalysis o job).events.filterMap progressValue?).length =
      o.modules.length ∧
    List.Pairwise (· ≤ ·)
      ((executeAnalysis o job).events.filterMap progressValue?) ∧
    (0 < o.modules.length →
      ((executeAnalysis o job).events.filterMap progressValue?).getLast? =
        some 100) := by
  obtain ⟨hnd, hfound, hallin, hsub, _⟩ :=
    (resolveExecutionOrder_sound o).2.2.2.2 order hres
  have hperm : (order.map (fun m => m.name)).Perm
      (o.modules.map (fun m => m.name)) := by
    refine (hnd.subperm ?_).antisymm (hnodup.subperm ?_)
    · intro a ha
      exact hsub a ha
    · intro a ha
      obtain ⟨m, hm, rfl⟩ := List.mem_map.mp ha
      exact hallin m hm
  have hlen : order.length = o.modules.length := by
    have hl := hperm.length_eq
    simpa using hl
  have hsucc' : ∀ m ∈ order, ∀ c, (m.execute c).isOk = true := by
    intro m hm
    exact hsucc m (findModule_name (hfound m hm)).1
  have hexec : (executeAnalysis o job).events =
      (runModules order ⟨job.url, job.options, none⟩ [] order).2.2 ++
        [.complete (aggregateResults
          (runModules order ⟨job.url, job.options, none⟩ [] order).2.1)] := by
    simp [executeAnalysis, hres]
  have htrace := runModules_progress_trace order hnd order []
    ⟨job.url, job.options, none⟩ [] (by simp) hsucc'
  have hmain : (executeAnalysis o job).events.filterMap progressValue? =
      (List.range o.modules.length).map
        (fun k => jsRound100 (k + 1) o.modules.length) := by
    rw [hexec, List.filterMap_append]
    rw [← hlen]
    simpa [progressValue?] using htrace
  refine ⟨hmain, ?_, ?_, ?_⟩
  · rw [hmain]
    simp
  · rw [hmain, List.pairwise_map]
    apply List.Pairwise.imp ?_ (List.pairwise_lt_range _)
    intro a b hab
    exact jsRound100_mono (by omega)
  · intro hN
    rw [hmain]
    obtain ⟨M, hM⟩ : ∃ M, o.modules.length = M + 1 :=
      ⟨o.modules.length - 1, by omega⟩
    rw [hM, List.range_succ, List.map_append, List.map_cons, List.map_nil,
      List.getLast?_concat]
    rw [jsRound100_self (by omega)]

theorem claim_C5_progress_values_witness :
    ((allOkOrch.modules.map (fun m => m.name)).Nodup ∧
      resolveExecutionOrder allOkOrch = .ok allOkOrch.modules) ∧
    (((executeAnalysis allOkOrch sampleJob).events.filterMap
        progressValue? =
      (List.range allOkOrch.modules.length).map
        (fun k => jsRound100 (k + 1) allOkOrch.modules.length)) ∧
     ((executeAnalysis allOkOrch sampleJob).events.filterMap
        progressValue?).length = allOkOrch.modules.length ∧
     List.Pairwise (· ≤ ·)
       ((executeAnalysis allOkOrch sampleJob).events.filterMap
         progressValue?) ∧
     (0 < allOkOrch.modules.length →
       ((executeAnalysis allOkOrch sampleJob).events.filterMap
         progressValue?).getLast? = some 100)) :=
  ⟨⟨by decide, rfl⟩,
   claim_C5_progress_values allOkOrch sampleJob allOkOrch.modules (by decide)
     rfl (by
       intro m hm c
       rcases List.mem_cons.mp hm with rfl | hm'
       · rfl
       · rcases List.mem_cons.mp hm' with rfl | hm''
         · rfl
         · simp at hm'')⟩

/-- Claim C9, amended: a progress event is emitted only for a module
whose execute succeeds — the counts of progress and moduleComplete
events agree, and no progress event names an always-failing module's
task — and the `complete` event still fires with the partial aggregate
in which the failing module's slot is absent.  (The original claim's
consequence that no 100-percent progress is ever emitted when the last
module fails is false once the run has at least 200 modules; see the
counterexample.) -/
theorem claim_C9_progress_only_on_success {ρ : Type} (o : Orchestrator ρ)
    (job : AnalysisJob) (order : List (AnalysisModule ρ))
    (A : AnalysisModule ρ) (eA : String)
    (hnodup : (o.modules.map (fun m => m.name)).Nodup)
    (hres : resolveExecutionOrder o = .ok order)
    (hA : A ∈ o.modules)
    (hAfail : ∀ c, A.execute c = .error eA) :
    ((executeAnalysis o job).events.countP isProgressEvent =
      (executeAnalysis o job).events.countP isModuleCompleteEvent) ∧
    (∀ u, OrchEvent.progress u ∈ (executeAnalysis o job).events →
      u.currentTask ≠ "Completed " ++ A.name) ∧
    (∃ agg, (executeAnalysis o job).result = .ok agg ∧
      OrchEvent.complete agg ∈ (executeAnalysis o job).events ∧
      slotOf agg A.name = none) := by
  have huniqA := order_unique_name hnodup hres hA
  have hexec : executeAnalysis o job =
      { result := .ok (aggregateResults
          (runModules order ⟨job.url, job.options, none⟩ [] order).2.1)
        events :=
          (runModules order ⟨job.url, job.options, none⟩ [] order).2.2
            ++ [.complete (aggregateResults
              (runModules order ⟨job.url, job.options, none⟩ [] order).2.1)]
        final := { o with moduleResults :=
          (runModules order ⟨job.url, job.options, none⟩ [] order).2.1 } } := by
    simp [executeAnalysis, hres]
  rw [hexec]
  have hlookA : listGet?
      (runModules order ⟨job.url, job.options, none⟩ [] order).2.1 A.name =
      none :=
    runModules_lookup_fail order order ⟨job.url, job.options, none⟩ [] A eA
      hAfail huniqA (by simp [listGet?])
  refine ⟨?_, ?_, ?_⟩
  · rw [List.countP_append, List.countP_append,
      runModules_countP_eq order order ⟨job.url, job.options, none⟩ []]
    simp [isProgressEvent, isModuleCompleteEvent]
  · intro u hu
    rcases List.mem_append.mp hu with hu | hu
    · exact runModules_no_progress_of_fail order order
        ⟨job.url, job.options, none⟩ [] A eA hAfail huniqA u hu
    · simp at hu
  · refine ⟨aggregateResults
      (runModules order ⟨job.url, job.options, none⟩ [] order).2.1,
      rfl, List.mem_append_right _ (by simp), ?_⟩
    rw [slotOf_aggregate]
    split_ifs with h
    · exact hlookA
    · rfl

theorem claim_C9_progress_only_on_success_witness :
    ((mixedRunOrch.modules.map (fun m => m.name)).Nodup ∧
      resolveExecutionOrder mixedRunOrch = .ok mixedRunOrch.modules ∧
      failingModule ∈ mixedRunOrch.modules) ∧
    (((executeAnalysis mixedRunOrch sampleJob).events.countP
        isProgressEvent =
      (executeAnalysis mixedRunOrch sampleJob).events.countP
        isModuleCompleteEvent) ∧
     (∀ u, OrchEvent.progress u ∈
        (executeAnalysis mixedRunOrch sampleJob).events →
       u.currentTask ≠ "Completed " ++ failingModule.name) ∧
     (∃ agg, (executeAnalysis mixedRunOrch sampleJob).result = .ok agg ∧
       OrchEvent.complete agg ∈
         (executeAnalysis mixedRunOrch sampleJob).events ∧
       slotOf agg failingModule.name = none)) :=
  ⟨⟨by decide, rfl, List.mem_cons_self _ _⟩,
   claim_C9_progress_only_on_success mixedRunOrch sampleJob
     mixedRunOrch.modules failingModule "boom" (by decide) rfl
     (List.mem_cons_self _ _) (fun _ => rfl)⟩

/-! A registry whose modules declare no dependencies resolves to the
registration order; used by the C9 counterexample. -/

theorem visitAll_nodeps {ρ : Type} (reg : List (AnalysisModule ρ))
    (hnodup : (reg.map (fun m => m.name)).Nodup)
    (hnodeps : ∀ m ∈ reg, m.dependencies = []) (F : Nat) :
    ∀ (ms done : List (AnalysisModule ρ)),
      reg = done ++ ms →
      visitAll reg (F + 1) ⟨[], done.map (fun m => m.name), done⟩ ms =
        .ok ⟨[], reg.map (fun m => m.name), reg⟩ := by
  intro ms
  induction ms with
  | nil =>
    intro done h
    have h' : done = reg := by rw [h, List.append_nil]
    rw [h']
    simp [visitAll]
  | cons m rest ihm =>
    intro done h
    have hm : m ∈ reg := by
      rw [h]
      exact List.mem_append_right _ (by simp)
    have hfm := findModule_self_of_nodup hnodup hm
    have h2 : m.name ∉ done.map (fun m => m.name) := by
      have hra := hnodup
      rw [h, List.map_append, List.nodup_append] at hra
      exact fun hmem => hra.2.2 hmem (List.mem_map.mpr ⟨m, by simp, rfl⟩)
    have hstep : visit reg (F + 1)
        ⟨[], done.map (fun m => m.name), done⟩ m.name =
        .ok ⟨[], done.map (fun m => m.name) ++ [m.name], done ++ [m]⟩ := by
      rw [visit_succ_eq reg F _ m.name m (by simp) h2 hfm]
      rw [hnodeps m hm]
      simp [visitFold]
    have hvall : visitAll reg (F + 1)
        ⟨[], done.map (fun m => m.name), done⟩ (m :: rest) =
        visitAll reg (F + 1)
          ⟨[], done.map (fun m => m.name) ++ [m.name], done ++ [m]⟩ rest := by
      simp [visitAll, hstep]
    rw [hvall]
    have hrec := ihm (done ++ [m]) (by rw [h]; simp)
    simpa using hrec

theorem resolve_nodeps {ρ : Type} (o : Orchestrator ρ)
    (hnodup : (o.modules.map (fun m => m.name)).Nodup)
    (hnodeps : ∀ m ∈ o.modules, m.dependencies = []) :
    resolveExecutionOrder o = .ok o.modules := by
  have h := visitAll_nodeps o.modules hnodup hnodeps o.modules.length
    o.modules [] rfl
  simp only [List.map_nil] at h
  unfold resolveExecutionOrder
  rw [h]

/-- Unfolding of `executeAnalysis` when resolution succeeds, stated over
a symbolic registry so instances need no kernel evaluation. -/
theorem executeAnalysis_events_of_ok {ρ : Type} (o : Orchestrator ρ)
    (job : AnalysisJob) (order : List (AnalysisModule ρ))
    (hres : resolveExecutionOrder o = .ok order) :
    (executeAnalysis o job).events =
      (runModules order ⟨job.url, job.options, none⟩ [] order).2.2 ++
      [.complete (aggregateResults
        (runModules order ⟨job.url, job.options, none⟩ [] order).2.1)] := by
  simp [executeAnalysis, hres]

/-- Claim C9, counterexample to the original statement: in the
200-module registry whose last module in the resolved order (m199)
always fails, a progress event reporting 100 percent is nonetheless
emitted — module m198 at position 199 yields
round(100·199/200) = round(99.5) = 100. -/
theorem bigName_injective : Function.Injective bigName := by
  intro i j h
  have hlen : (List.replicate (i + 1) 'm').length =
      (List.replicate (j + 1) 'm').length := by
    have hd : (bigName i).data = (bigName j).data := by rw [h]
    simpa [bigName] using hd
  simpa using hlen

theorem bigModule_name (i : Nat) : (bigModule i).name = bigName i := by
  by_cases h : i = 199 <;> simp [bigModule, h]

theorem bigMods_names :
    bigMods.map (fun m => m.name) = (List.range 200).map bigName := by
  rw [bigMods, List.map_map]
  apply List.map_congr_left
  intro i _hi
  exact bigModule_name i

theorem bigMods_nodup : (bigMods.map (fun m => m.name)).Nodup := by
  rw [bigMods_names]
  exact (List.nodup_range 200).map bigName_injective

theorem bigMods_split :
    bigMods = (List.range 198).map bigModule ++
      bigModule 198 :: [bigModule 199] := by
  rw [bigMods]
  have h1 : List.range 200 = List.range 199 ++ [199] := by
    rw [← List.range_succ]
  have h2 : List.range 199 = List.range 198 ++ [198] := by
    rw [← List.range_succ]
  rw [h1, h2]
  simp

/-- Claim C9, counterexample to the original statement: in the
200-module registry whose last module in the resolved order (index 199)
always fails, a progress event reporting 100 percent is nonetheless
emitted — the module at position 199 of 200 yields
round(100·199/200) = round(99.5) = 100. -/
theorem claim_C9_counterexample :
    resolveExecutionOrder bigOrch = .ok bigMods ∧
    (bigMods.map (fun m => m.name)).getLast? = some (bigName 199) ∧
    OrchEvent.moduleError (bigName 199) "boom" ∈
      (executeAnalysis bigOrch sampleJob).events ∧
    OrchEvent.progress (mkProgressUpdate bigMods (bigModule 198)) ∈
      (executeAnalysis bigOrch sampleJob).events ∧
    (mkProgressUpdate bigMods (bigModule 198)).progress = 100 := by
  have hnodeps : ∀ m ∈ bigMods, m.dependencies = [] := by
    intro m hm
    obtain ⟨i, _hi, rfl⟩ := List.mem_map.mp hm
    by_cases h : i = 199 <;> simp [bigModule, h]
  have hres : resolveExecutionOrder bigOrch = .ok bigMods :=
    resolve_nodeps bigOrch bigMods_nodup hnodeps
  have hexec : (executeAnalysis bigOrch sampleJob).events =
      (runModules bigMods ⟨sampleJob.url, sampleJob.options, none⟩ []
        bigMods).2.2 ++
      [.complete (aggregateResults
        (runModules bigMods ⟨sampleJob.url, sampleJob.options, none⟩ []
          bigMods).2.1)] :=
    executeAnalysis_events_of_ok bigOrch sampleJob bigMods hres
  have hmem199 : bigModule 199 ∈ bigMods :=
    List.mem_map.mpr ⟨199, List.mem_range.mpr (by omega), rfl⟩
  have hmem198 : bigModule 198 ∈ bigMods :=
    List.mem_map.mpr ⟨198, List.mem_range.mpr (by omega), rfl⟩
  have hname199 : (bigModule 199).name = bigName 199 := bigModule_name 199
  have hlast : (bigMods.map (fun m => m.name)).getLast? =
      some (bigName 199) := by
    rw [bigMods_names, List.getLast?_map]
    have hr : (List.range 200).getLast? = some 199 := by
      have h1 : List.range 200 = List.range 199 ++ [199] := by
        rw [← List.range_succ]
      rw [h1, List.getLast?_concat]
    rw [hr]
    rfl
  have hprog : (mkProgressUpdate bigMods (bigModule 198)).progress = 100 := by
    have hpre_ne : ∀ x ∈ (List.range 198).map bigModule,
        x.name ≠ (bigModule 198).name := by
      intro x hx heq
      obtain ⟨i, hi, rfl⟩ := List.mem_map.mp hx
      rw [bigModule_name, bigModule_name] at heq
      have := bigName_injective heq
      have hi' := List.mem_range.mp hi
      omega
    have hcalc := calculateProgress_at ((List.range 198).map bigModule)
      [bigModule 199] (bigModule 198) hpre_ne
    rw [← bigMods_split] at hcalc
    simp only [mkProgressUpdate]
    rw [hcalc]
    have hlen198 : ((List.range 198).map bigModule).length = 198 := by
      simp
    have hlenall : bigMods.length = 200 := by
      rw [bigMods]
      simp
    rw [hlen198, hlenall]
    norm_num [jsRound100]
  refine ⟨hres, hlast, ?_, ?_, hprog⟩
  · rw [hexec, ← hname199]
    exact List.mem_append_left _
      (runModules_error_mem bigMods bigMods
        ⟨sampleJob.url, sampleJob.options, none⟩ [] (bigModule 199) "boom"
        hmem199 (fun c => by rw [bigModule]; norm_num))
  · rw [hexec]
    exact List.mem_append_left _
      (runModules_progress_mem bigMods bigMods
        ⟨sampleJob.url, sampleJob.options, none⟩ [] (bigModule 198)
        hmem198 (fun c => by
          simp [bigModule, Except.isOk, Except.toBool]))

end CruelStack
